import Mathlib

/-!
Verification of the zinfer schema-type extraction pipeline.

The development shallowly embeds the text-processing core of the zinfer
repository: the type-string surgery of the extractor
(src/core/extractor.ts), the getter-based self-reference resolver
(getter-resolver.ts), the union-reference analyzer
(schema-reference-analyzer.ts), the declaration printer (type-printer.ts)
and the CLI option validation (cli.ts).  Source strings are modelled as
lists of characters (abbreviated Str); the TypeScript type checker, which
the extractor drives as an oracle, is modelled as a function parameter
from file state and alias name to an optional result text.
-/

namespace Zinfer

/-- Character-list strings: the whole embedding works on List Char. -/
abbrev Str := List Char

/-- Conversion from Lean string literals to the embedded string type. -/
def cs (s : String) : Str := s.toList

/-- Substring test, mirroring JavaScript String.prototype.includes. -/
def hasSub (pat : Str) : Str → Bool
  | [] => pat.isEmpty
  | c :: t => pat.isPrefixOf (c :: t) || hasSub pat t

/-- Auxiliary index search starting at a given offset. -/
def idxOfAux (pat : Str) : Str → Nat → Option Nat
  | [], i => if pat.isEmpty then some i else none
  | c :: t, i => if pat.isPrefixOf (c :: t) then some i else idxOfAux pat t (i + 1)

/-- Index of the first occurrence of pat at or after position start,
mirroring JavaScript String.prototype.indexOf with a fromIndex. -/
def idxOfFrom (s pat : Str) (start : Nat) : Option Nat :=
  idxOfAux pat (s.drop start) start

/-- Half-open substring extraction, mirroring String.prototype.substring
for i less than or equal to j. -/
def subRange (s : Str) (i j : Nat) : Str := (s.drop i).take (j - i)

/-- Whitespace test covering the characters produced by this pipeline. -/
def isWsChar (c : Char) : Bool := c = ' ' || c = '\n' || c = '\t' || c = '\r'

/-- Both-ends trim, mirroring String.prototype.trim on pipeline text. -/
def trimChars (s : Str) : Str :=
  ((s.dropWhile isWsChar).reverse.dropWhile isWsChar).reverse

/-- Right trim, mirroring String.prototype.trimEnd. -/
def trimEndChars (s : Str) : Str := (s.reverse.dropWhile isWsChar).reverse

/-- Left trim, mirroring String.prototype.trimStart. -/
def trimStartChars (s : Str) : Str := s.dropWhile isWsChar

/-- Split on a separator character, mirroring String.prototype.split. -/
def splitOnCharAux (sep : Char) : Str → Str → List Str
  | [], cur => [cur.reverse]
  | c :: t, cur =>
      if c = sep then cur.reverse :: splitOnCharAux sep t []
      else splitOnCharAux sep t (c :: cur)

/-- Splitting entry point with an empty accumulator. -/
def splitOnChar (sep : Char) (s : Str) : List Str := splitOnCharAux sep s []

/-- Repetition of an indent unit, mirroring String.prototype.repeat. -/
def indentRep (indent : Str) (n : Nat) : Str := List.flatten (List.replicate n indent)

/-- Word-character test matching the JavaScript regex class backslash-w. -/
def isWordChar (c : Char) : Bool := c.isAlpha || c.isDigit || c = '_'

/-- Word-character test lifted to an optional character; absence of a
character (string edge) counts as a non-word position. -/
def isWordO : Option Char → Bool
  | none => false
  | some c => isWordChar c

/-- Word-boundary test between two adjacent positions, as in the regex
metacharacter backslash-b: exactly one side is a word character. -/
def wbBoundary (x y : Option Char) : Bool := isWordO x != isWordO y

/-- Match test for a whole-word occurrence of w0 :: wr at the head of s,
given the character immediately before s. -/
def wbMatchAt (w0 : Char) (wr : Str) (prev : Option Char) (s : Str) : Bool :=
  (w0 :: wr).isPrefixOf s &&
    wbBoundary prev (some w0) &&
    wbBoundary (some ((w0 :: wr).getLastD w0)) ((s.drop (wr.length + 1)).head?)

/-- Scanner of the global word-bounded replacement: mirrors the semantics
of String.prototype.replace with a g-flagged regex built from a word
pattern; matching is performed over the original string, scanning resumes
after each match.  The fuel argument makes the recursion structural; it
never runs out when initialized with the scanned string's length, since
every step consumes at least one character. -/
def wbAux (w0 : Char) (wr : Str) (repl : Str) : Nat → Option Char → Str → Str
  | 0, _, s => s
  | _ + 1, _, [] => []
  | fuel + 1, prev, c :: t =>
      if wbMatchAt w0 wr prev (c :: t) then
        repl ++ wbAux w0 wr repl fuel (some ((w0 :: wr).getLastD w0)) (t.drop wr.length)
      else
        c :: wbAux w0 wr repl fuel (some c) t

/-- Whole-word global replacement, the embedding of
text.replace(new RegExp("\\b" + word + "\\b", "g"), repl). -/
def wbReplaceAll (s w repl : Str) : Str :=
  match w with
  | [] => s
  | c :: wr => wbAux c wr repl s.length none s

/-- Absence of any whole-word match of w0 :: wr while scanning s with the
given preceding character. -/
def wbClean (w0 : Char) (wr : Str) : Option Char → Str → Bool
  | _, [] => true
  | prev, c :: t => !wbMatchAt w0 wr prev (c :: t) && wbClean w0 wr (some c) t

/-- Absence of any whole-word match of w0 :: wr starting inside the
region a of the string a ++ tail. -/
def wbCleanUpTo (w0 : Char) (wr : Str) : Option Char → Str → Str → Bool
  | _, [], _ => true
  | prev, c :: a, tail =>
      !wbMatchAt w0 wr prev (c :: (a ++ tail)) && wbCleanUpTo w0 wr (some c) a tail

/-- Preceding character after having scanned over a, starting from prev. -/
def prevAfter (a : Str) (prev : Option Char) : Option Char :=
  match a with
  | [] => prev
  | c :: t => prevAfter t (some c)

theorem wbAux_of_clean (w0 : Char) (wr repl : Str) :
    ∀ (s : Str) (fuel : Nat) (prev : Option Char), s.length ≤ fuel →
      wbClean w0 wr prev s = true → wbAux w0 wr repl fuel prev s = s := by
  intro s
  induction s with
  | nil => intro fuel prev _ _; cases fuel <;> rfl
  | cons c t ih =>
      intro fuel prev hf h
      cases fuel with
      | zero => simp at hf
      | succ g =>
          rw [wbClean] at h
          simp only [Bool.and_eq_true, Bool.not_eq_true'] at h
          rw [wbAux]
          simp only [h.1, if_false, Bool.false_eq_true]
          have hf' : t.length ≤ g := by
            simp only [List.length_cons] at hf
            omega
          rw [ih g (some c) hf' h.2]

theorem wbAux_append_of_cleanUpTo (w0 : Char) (wr repl : Str) :
    ∀ (a tail : Str) (fuel : Nat) (prev : Option Char),
      (a ++ tail).length ≤ fuel →
      wbCleanUpTo w0 wr prev a tail = true →
      wbAux w0 wr repl fuel prev (a ++ tail) =
        a ++ wbAux w0 wr repl (fuel - a.length) (prevAfter a prev) tail := by
  intro a
  induction a with
  | nil => intro tail fuel prev _ _; simp [prevAfter]
  | cons c a ih =>
      intro tail fuel prev hf h
      cases fuel with
      | zero => simp at hf
      | succ g =>
          rw [wbCleanUpTo] at h
          simp only [Bool.and_eq_true, Bool.not_eq_true'] at h
          rw [List.cons_append, wbAux]
          simp only [h.1, if_false, Bool.false_eq_true]
          have hf' : (a ++ tail).length ≤ g := by
            simp only [List.cons_append, List.length_cons] at hf
            omega
          rw [ih tail g (some c) hf' h.2]
          have : Nat.succ g - (c :: a).length = g - a.length := by
            simp only [List.length_cons]
            omega
          rw [this]
          simp [prevAfter]

theorem wbAux_match_head (w0 : Char) (wr repl : Str) (b : Str) (fuel : Nat)
    (prev : Option Char)
    (h : wbMatchAt w0 wr prev ((w0 :: wr) ++ b) = true) :
    wbAux w0 wr repl (fuel + 1) prev ((w0 :: wr) ++ b) =
      repl ++ wbAux w0 wr repl fuel (some ((w0 :: wr).getLastD w0)) b := by
  rw [List.cons_append, wbAux]
  rw [List.cons_append] at h
  simp only [h, if_true]
  congr 2
  simp

/-- Whole-word replacement at a single isolated occurrence: if the word
occurs with boundaries exactly once, between a and b, the global
replacement rewrites precisely that occurrence. -/
theorem wbReplaceAll_single (w0 : Char) (wr repl a b : Str)
    (hclean : wbCleanUpTo w0 wr none a ((w0 :: wr) ++ b) = true)
    (hmatch : wbMatchAt w0 wr (prevAfter a none) ((w0 :: wr) ++ b) = true)
    (hb : wbClean w0 wr (some ((w0 :: wr).getLastD w0)) b = true) :
    wbReplaceAll (a ++ (w0 :: wr) ++ b) (w0 :: wr) repl = a ++ repl ++ b := by
  rw [wbReplaceAll]
  rw [List.append_assoc]
  rw [wbAux_append_of_cleanUpTo w0 wr repl a ((w0 :: wr) ++ b)
    (a ++ ((w0 :: wr) ++ b)).length none (le_refl _) hclean]
  have hfm : (a ++ ((w0 :: wr) ++ b)).length - a.length =
      (wr.length + b.length) + 1 := by
    simp only [List.length_append, List.length_cons]
    omega
  rw [hfm]
  rw [wbAux_match_head w0 wr repl b (wr.length + b.length) (prevAfter a none) hmatch]
  rw [wbAux_of_clean w0 wr repl b (wr.length + b.length)
    (some ((w0 :: wr).getLastD w0)) (by omega) hb]
  simp

/-- Whole-word replacement with no occurrence leaves the text unchanged. -/
theorem wbReplaceAll_of_clean (w0 : Char) (wr repl s : Str)
    (h : wbClean w0 wr none s = true) :
    wbReplaceAll s (w0 :: wr) repl = s := by
  rw [wbReplaceAll]
  exact wbAux_of_clean w0 wr repl s s.length none (le_refl _) h

theorem hasSub_nil_pat (s : Str) : hasSub [] s = true := by
  induction s with
  | nil => rfl
  | cons c t ih => rw [hasSub]; simp [List.isPrefixOf, ih]

theorem hasSub_of_decomp (pat a b : Str) : hasSub pat (a ++ pat ++ b) = true := by
  induction a with
  | nil =>
      rw [List.nil_append]
      cases pat with
      | nil => simpa using hasSub_nil_pat b
      | cons p ps =>
          have hp : (p :: ps).isPrefixOf ((p :: ps) ++ b) = true := by
            rw [List.isPrefixOf_iff_prefix]
            exact ⟨b, rfl⟩
          rw [List.cons_append, hasSub]
          simp only [List.cons_append] at hp
          simp [hp]
  | cons c t ih =>
      simp only [List.cons_append]
      rw [hasSub]
      simp only [List.cons_append, List.append_assoc] at ih ⊢
      simp [ih]

theorem mem_of_hasSub (pat : Str) : ∀ (s : Str), hasSub pat s = true →
    ∀ c ∈ pat, c ∈ s := by
  intro s
  induction s with
  | nil =>
      intro h c hc
      rw [hasSub] at h
      simp [List.isEmpty_iff] at h
      subst h; cases hc
  | cons d t ih =>
      intro h c hc
      rw [hasSub] at h
      rcases Bool.or_eq_true_iff.mp h with h1 | h2
      · have : pat <+: d :: t := List.isPrefixOf_iff_prefix.mp h1
        exact this.sublist.mem hc
      · exact List.mem_cons_of_mem d (ih h2 c hc)

theorem not_hasSub_of_not_mem (pat s : Str) (c : Char) (hc : c ∈ pat) (hs : c ∉ s) :
    hasSub pat s = false := by
  by_contra h
  rw [Bool.not_eq_false] at h
  exact hs (mem_of_hasSub pat s h c hc)

/-! The data model of src/core/types.ts, restricted to the fields the
claims exercise.  Optional arrays of the source become plain lists, with
the empty list standing for an absent value (the source only ever tests
emptiness or iterates). -/

/-- Brand occurrence: name plus dotted field path, empty path for a brand
on the schema root (BrandInfo in types.ts). -/
structure BrandInfo where
  brandName : Str
  fieldPath : Str
deriving DecidableEq, Repr

/-- Field description from describe() calls (FieldDescription in types.ts). -/
structure FieldDescription where
  path : Str
  description : Str
deriving DecidableEq, Repr

/-- Generated type names for one schema (MappedTypeName in types.ts). -/
structure MappedTypeName where
  originalName : Str
  inputName : Str
  outputName : Str
  unifiedName : Str
deriving DecidableEq, Repr

/-- Options of the declaration printer.  The printer destructures the
field spelled unifySame in type-printer.ts. -/
structure DeclarationOptions where
  inputOnly : Bool
  outputOnly : Bool
  unifySame : Bool
deriving DecidableEq, Repr

/-- Terminal artifact of extraction (ExtractResult in types.ts). -/
structure ExtractResult where
  schemaName : Str
  input : Str
  output : Str
  isExported : Bool
  description : Option Str
  fieldDescriptions : Option (List FieldDescription)
  brands : List BrandInfo
deriving DecidableEq, Repr

/-! Getter resolver (getter-resolver.ts).  The AST analysis that builds
the getter field map is performed by ts-morph on the syntax tree; the map
itself is the input of the functions below, exactly as in
extractor.ts. -/

/-- Record for one accessor-style field (GetterFieldInfo). -/
structure GetterFieldInfo where
  refSchema : Str
  isArray : Bool
  isRecord : Bool
  isOptional : Bool
  isSelfRef : Bool
deriving DecidableEq, Repr

/-- Map from field name to getter info, in insertion order. -/
abbrev GetterFieldMap := List (Str × GetterFieldInfo)

/-- Self-reference test over a getter field map
(GetterResolver.hasSelfReferences). -/
def hasSelfReferences (getterFields : GetterFieldMap) : Bool :=
  getterFields.any (fun p => p.2.isSelfRef)

/-- Single rewriting step of GetterResolver.replaceRecordAny at a found
pattern index: locate a record index signature shortly after the field
pattern and substitute its any value. -/
def rraStep (t pattern typeName : Str) (idx : Nat) : Str :=
  let afterBrace := idx + pattern.length
  match idxOfFrom t (cs "[x: string]:") afterBrace with
  | none => t
  | some indexSigStart =>
      if indexSigStart < afterBrace + 20 then
        let colonPos := indexSigStart + (cs "[x: string]:").length
        let afterColon := trimStartChars (t.drop colonPos)
        if (cs "any").isPrefixOf afterColon then
          match idxOfFrom (t.drop colonPos) (cs "any") 0 with
          | none => t
          | some rel =>
              let anyStart := colonPos + rel
              t.take anyStart ++ typeName ++ t.drop (anyStart + 3)
        else t
      else t

/-- While loop of replaceRecordAny over successive pattern indices; the
fuel argument bounds the iterations of the source while loop, whose
search index strictly advances each round. -/
def rraLoop (pattern typeName : Str) : Nat → Option Nat → Str → Str
  | 0, _, t => t
  | _ + 1, none, t => t
  | fuel + 1, some idx, t =>
      let t1 := rraStep t pattern typeName idx
      rraLoop pattern typeName fuel (idxOfFrom t1 pattern (idx + 1)) t1

/-- Record-field any rewriting (GetterResolver.replaceRecordAny): both
field patterns are tried over the evolving text. -/
def replaceRecordAny (typeStr fieldName typeName : Str) : Str :=
  let p1 := fieldName ++ cs ": \x7b"
  let p2 := fieldName ++ cs "?: \x7b"
  let t1 := rraLoop p1 typeName (typeStr.length + typeName.length + 2)
    (idxOfFrom typeStr p1 0) typeStr
  rraLoop p2 typeName (t1.length + typeName.length + 2) (idxOfFrom t1 p2 0) t1

/-- Single rewriting step of GetterResolver.replaceFieldAny at a found
pattern index: replace a leading any (optionally readonly-prefixed,
optionally array-suffixed) of the field value. -/
def rfaStep (t pattern typeName : Str) (isArr : Bool) (idx : Nat) : Str :=
  let valueStart := idx + pattern.length
  let restOfType := t.drop valueStart
  let anyIdx? : Option Nat :=
    if (cs "readonly ").isPrefixOf restOfType then
      if (cs "any").isPrefixOf (restOfType.drop (cs "readonly ").length) then
        some (valueStart + (cs "readonly ").length)
      else none
    else if (cs "any").isPrefixOf restOfType then some valueStart
    else none
  match anyIdx? with
  | none => t
  | some anyIdx =>
      let afterAny := t.drop (anyIdx + 3)
      let hasArrayBrackets := (cs "[]").isPrefixOf afterAny
      let replacement := if isArr || hasArrayBrackets then typeName ++ cs "[]" else typeName
      let endPos := anyIdx + 3 + (if hasArrayBrackets then 2 else 0)
      t.take anyIdx ++ replacement ++ t.drop endPos

/-- While loop of replaceFieldAny over successive pattern indices, fueled
like the record loop. -/
def rfaLoop (pattern typeName : Str) (isArr : Bool) : Nat → Option Nat → Str → Str
  | 0, _, t => t
  | _ + 1, none, t => t
  | fuel + 1, some idx, t =>
      let t1 := rfaStep t pattern typeName isArr idx
      rfaLoop pattern typeName isArr fuel (idxOfFrom t1 pattern (idx + 1)) t1

/-- Plain-field any rewriting (GetterResolver.replaceFieldAny). -/
def replaceFieldAny (typeStr fieldName typeName : Str) (isArr : Bool) : Str :=
  let p1 := fieldName ++ cs ": "
  let p2 := fieldName ++ cs "?: "
  let t1 := rfaLoop p1 typeName isArr (typeStr.length + typeName.length + 2)
    (idxOfFrom typeStr p1 0) typeStr
  rfaLoop p2 typeName isArr (t1.length + typeName.length + 2) (idxOfFrom t1 p2 0) t1

/-- Self-reference resolution over checker text
(GetterResolver.resolveAnyTypes): every directly self-referencing getter
field has its any placeholder patched to the generated type name; record
fields additionally get their index-signature value patched. -/
def resolveAnyTypes (typeStr : Str) (getterFields : GetterFieldMap) (typeName : Str) : Str :=
  getterFields.foldl
    (fun result p =>
      if !p.2.isSelfRef then result
      else
        let r1 := if p.2.isRecord then replaceRecordAny result p.1 typeName else result
        replaceFieldAny r1 p.1 typeName p.2.isArray)
    typeStr

/-! Declaration printer (type-printer.ts). -/

/-- Association-list update with JavaScript Map.set semantics: overwrite
the first binding of the key, else append. -/
def setA {β : Type} : List (Str × β) → Str → β → List (Str × β)
  | [], k, v => [(k, v)]
  | (k', v') :: t, k, v => if k' = k then (k, v) :: t else (k', v') :: setA t k v

/-- Association-list lookup with JavaScript Map.get semantics. -/
def lookupA {β : Type} (m : List (Str × β)) (k : Str) : Option β :=
  (m.find? (fun p => p.1 == k)).map (·.2)

/-- Mutable state of the object-type pretty printer (ParserState in
type-printer.ts).  The depth counter is an integer because the source
decrements it unconditionally on closing braces. -/
structure ParserState where
  result : Str
  depth : Int
  inString : Bool
  stringChar : Option Char
  currentFieldName : Str
  capturingFieldName : Bool
  pathStack : List Str
deriving DecidableEq, Repr

/-- Initial parser state (createParserState). -/
def createParserState : ParserState :=
  ⟨[], 0, false, none, [], false, []⟩

/-- Quote characters tracked by the string-literal state machine. -/
def isQuoteChar (c : Char) : Bool := c = '"' || c = '\'' || c = Char.ofNat 96

/-- Integer-indexed indent repetition; the source only reaches
nonnegative depths on the object types it is given. -/
def indentRepI (indent : Str) (n : Int) : Str := indentRep indent n.toNat

/-- String-literal tracking (updateStringState). -/
def updateStringState (st : ParserState) (c : Char) (prev : Option Char) : ParserState :=
  if isQuoteChar c && prev ≠ some '\\' then
    if !st.inString then { st with inString := true, stringChar := some c }
    else if st.stringChar = some c then { st with inString := false, stringChar := none }
    else st
  else st

/-- Character copy inside a string literal (handleStringChar). -/
def handleStringChar (st : ParserState) (c : Char) : ParserState :=
  { st with
    result := st.result ++ [c],
    currentFieldName :=
      if st.capturingFieldName then st.currentFieldName ++ [c] else st.currentFieldName }

/-- Opening-brace handler (handleOpenBrace).  The trailing pathStack push
is guarded by a freshly cleared field name and is therefore inert, as in
the source. -/
def handleOpenBrace (st : ParserState) (indent : Str) : ParserState :=
  let st1 := { st with depth := st.depth + 1 }
  let st2 := { st1 with
    result := st1.result ++ cs "\x7b\n" ++ indentRepI indent st1.depth,
    capturingFieldName := true,
    currentFieldName := [] }
  if st2.depth > 1 && st2.currentFieldName ≠ [] then
    { st2 with pathStack := st2.pathStack ++ [st2.currentFieldName] }
  else st2

/-- Closing-brace handler (handleCloseBrace). -/
def handleCloseBrace (st : ParserState) (indent : Str) : ParserState :=
  let st1 := { st with depth := st.depth - 1 }
  let st2 :=
    if st1.pathStack.length > 0 && st1.depth ≥ 1 then
      { st1 with pathStack := st1.pathStack.dropLast }
    else st1
  { st2 with result := st2.result ++ cs "\n" ++ indentRepI indent st2.depth ++ cs "\x7d" }

/-- TSDoc comment line (createTsDocComment). -/
def createTsDocComment (description indentStr : Str) : Str :=
  indentStr ++ cs "/** " ++ description ++ cs " */\n"

/-- Description lookup for a field path (getFieldDescription). -/
def getFieldDescription (fieldName pfx : Str)
    (descriptions : Option (List FieldDescription)) : Option Str :=
  match descriptions with
  | none => none
  | some ds =>
      let path := if pfx ≠ [] then pfx ++ cs "." ++ fieldName else fieldName
      (ds.find? (fun d => d.path == path)).map (·.description)

/-- Last index of a character (String.prototype.lastIndexOf). -/
def lastIdxOf (s : Str) (c : Char) : Option Nat :=
  match s.reverse.findIdx? (· == c) with
  | some i => some (s.length - 1 - i)
  | none => none

/-- Removal of one trailing question mark, as in replace(/\?$/, ""). -/
def stripTrailingQ (s : Str) : Str :=
  if s.getLast? = some '?' then s.dropLast else s

/-- Colon handler (handleColon), inserting a TSDoc comment above the
field when a description is found. -/
def handleColon (st : ParserState) (indent : Str)
    (descriptions : Option (List FieldDescription)) (pfx : Str) : ParserState :=
  let st1 :=
    if st.capturingFieldName && st.currentFieldName ≠ [] then
      let cleanFieldName := trimChars (stripTrailingQ st.currentFieldName)
      let currentPath :=
        List.intercalate (cs ".") ((st.pathStack ++ [pfx]).filter (· ≠ []))
      match getFieldDescription cleanFieldName currentPath descriptions with
      | some d =>
          let pos := match lastIdxOf st.result '\n' with
            | some i => i + 1
            | none => 0
          let beforeField := st.result.take pos
          let fieldPart := st.result.drop pos
          { st with result :=
              beforeField ++ createTsDocComment d (indentRepI indent st.depth) ++ fieldPart }
      | none => st
    else st
  { st1 with
    result := st1.result ++ cs ":",
    capturingFieldName := false,
    currentFieldName := [] }

/-- Semicolon handler (handleSemicolon); rest is the text after the
current character. -/
def handleSemicolon (st : ParserState) (indent : Str) (rest : Str) : ParserState :=
  if (cs "\x7d").isPrefixOf (trimChars rest) then
    { st with result := st.result ++ cs ";" }
  else
    { st with
      result := st.result ++ cs ";\n" ++ indentRepI indent st.depth,
      capturingFieldName := true,
      currentFieldName := [] }

/-- Space handler (handleSpace): spaces directly after a fresh indented
line break are dropped. -/
def handleSpace (st : ParserState) (indent : Str) : ParserState :=
  if (cs "\n" ++ indentRepI indent st.depth).isSuffixOf st.result ||
      (cs "\x7b\n" ++ indentRepI indent st.depth).isSuffixOf st.result then
    st
  else
    { st with
      result := st.result ++ cs " ",
      currentFieldName :=
        if st.capturingFieldName then st.currentFieldName ++ [' ']
        else st.currentFieldName }

/-- Default character handler (handleDefaultChar). -/
def handleDefaultChar (st : ParserState) (c : Char) : ParserState :=
  { st with
    result := st.result ++ [c],
    currentFieldName :=
      if st.capturingFieldName then st.currentFieldName ++ [c] else st.currentFieldName }

/-- Character loop of prettifyObjectType. -/
def ppLoop (indent : Str) (descriptions : Option (List FieldDescription)) (pfx : Str) :
    Str → Option Char → ParserState → ParserState
  | [], _, st => st
  | c :: rest, prev, st =>
      let st1 := updateStringState st c prev
      if st1.inString then
        ppLoop indent descriptions pfx rest (some c) (handleStringChar st1 c)
      else
        let st2 :=
          if c = '\x7b' then handleOpenBrace st1 indent
          else if c = '\x7d' then handleCloseBrace st1 indent
          else if c = ':' then handleColon st1 indent descriptions pfx
          else if c = ';' then handleSemicolon st1 indent rest
          else if c = ' ' then handleSpace st1 indent
          else handleDefaultChar st1 c
        ppLoop indent descriptions pfx rest (some c) st2

/-- Object formatter (prettifyObjectType). -/
def prettifyObjectType (typeStr indent : Str)
    (descriptions : Option (List FieldDescription)) (pfx : Str) : Str :=
  (ppLoop indent descriptions pfx typeStr none createParserState).result

/-- Per-line right trim applied after prettifying. -/
def trimEndLines (s : Str) : Str :=
  List.intercalate (cs "\n") ((splitOnChar '\n' s).map trimEndChars)

/-- Entry point of the pretty printer (prettifyType): non-object text is
returned untouched. -/
def prettifyType (typeStr indent : Str)
    (descriptions : Option (List FieldDescription)) (pfx : Str) : Str :=
  if !((cs "\x7b").isPrefixOf typeStr && (cs "\x7d").isSuffixOf typeStr) then typeStr
  else trimEndLines (prettifyObjectType typeStr indent descriptions pfx)

/-- Head match of the field-brand regex (fieldName\??: )(\w+)(;|\s|\}) of
applyBrandToField: on success, the matched lead, the word run, the
trailing class character, and the remainder. -/
def brandMatchAt (fieldName : Str) (s : Str) : Option (Str × Str × Char × Str) :=
  if fieldName.isPrefixOf s then
    let s1 := s.drop fieldName.length
    let qm : Str := if s1.head? = some '?' then cs "?" else []
    let s2 := s1.drop qm.length
    if (cs ": ").isPrefixOf s2 then
      let s3 := s2.drop 2
      let w := s3.takeWhile isWordChar
      let s4 := s3.drop w.length
      if w ≠ [] then
        match s4.head? with
        | some c =>
            if c = ';' || isWsChar c || c = '\x7d' then
              some (fieldName ++ qm ++ cs ": ", w, c, s4.drop 1)
            else none
        | none => none
      else none
    else none
  else none

/-- Leftmost-match scan and single replacement of applyBrandToField.
The source rewrites via String.prototype.replace with the matched text as
a plain-string needle; its first occurrence necessarily coincides with
the leftmost regex match, since the matched text ends in a non-word class
character and would itself constitute an earlier regex match. -/
def abfScan (fieldName brandName : Str) : Str → Str
  | [] => []
  | c :: t =>
      match brandMatchAt fieldName (c :: t) with
      | some (lead, w, cc, rest) =>
          lead ++ w ++ cs " & BRAND<\"" ++ brandName ++ cs "\">" ++ [cc] ++ rest
      | none => c :: abfScan fieldName brandName t

/-- Field-level brand application (applyBrandToField): the last segment
of the dotted path is the field name searched for. -/
def applyBrandToField (typeStr fieldPath brandName : Str) : Str :=
  let parts := splitOnChar '.' fieldPath
  let fieldName := parts.getLastD []
  abfScan fieldName brandName typeStr

/-- Brand application (applyBrands): a root brand wraps the whole type in
an intersection, a field brand is applied to the named field. -/
def applyBrands (typeStr : Str) (brands : List BrandInfo) : Str :=
  brands.foldl
    (fun result b =>
      if b.fieldPath = [] then result ++ cs " & BRAND<\"" ++ b.brandName ++ cs "\">"
      else applyBrandToField result b.fieldPath b.brandName)
    typeStr

/-- Schema-level TSDoc comment of formatAsDeclaration; empty descriptions
are falsy in the source and produce no comment. -/
def schemaCommentOf (description : Option Str) : Str :=
  match description with
  | some d => if d.isEmpty then [] else cs "/**\n * " ++ d ++ cs "\n */\n"
  | none => []

/-- Export keyword mirror of the original schema (formatAsDeclaration). -/
def exportKeywordOf (isExported : Bool) : Str :=
  if isExported then cs "export " else []

/-- Declaration formatter for one extraction result
(formatAsDeclaration): brands are applied to the output side only; a
single unified declaration is produced when requested, the texts agree
and no brand is present. -/
def formatAsDeclaration (result : ExtractResult) (typeName : MappedTypeName)
    (opts : DeclarationOptions) : Str :=
  let indent := cs "  "
  let inputFormatted := prettifyType result.input indent result.fieldDescriptions []
  let outputWithBrands := applyBrands result.output result.brands
  let outputFormatted := prettifyType outputWithBrands indent result.fieldDescriptions []
  let schemaComment := schemaCommentOf result.description
  let exportKeyword := exportKeywordOf result.isExported
  if opts.unifySame && result.input == result.output && result.brands.isEmpty then
    schemaComment ++ exportKeyword ++ cs "type " ++ typeName.unifiedName ++
      cs " = " ++ inputFormatted ++ cs ";"
  else
    let lines1 : List Str :=
      if !opts.outputOnly then
        [schemaComment ++ exportKeyword ++ cs "type " ++ typeName.inputName ++
          cs " = " ++ inputFormatted ++ cs ";"]
      else []
    let lines2 : List Str :=
      if !opts.inputOnly then
        let sep : List Str := if lines1.length > 0 then [[]] else []
        let outputComment := if opts.outputOnly then schemaComment else []
        lines1 ++ sep ++
          [outputComment ++ exportKeyword ++ cs "type " ++ typeName.outputName ++
            cs " = " ++ outputFormatted ++ cs ";"]
      else lines1
    List.intercalate (cs "\n") lines2

/-- Cross-schema name fixing of formatMultipleAsDeclarations: every
whole-word SchemaNameInput and SchemaNameOutput occurrence is rewritten
through the active name mapping. -/
def fixResultNames (typeNameMap : List (Str × MappedTypeName)) (r : ExtractResult) :
    ExtractResult :=
  let io := typeNameMap.foldl
    (fun (p : Str × Str) e =>
      (wbReplaceAll p.1 (e.1 ++ cs "Input") e.2.inputName,
       wbReplaceAll p.2 (e.1 ++ cs "Output") e.2.outputName))
    (r.input, r.output)
  { r with input := io.1, output := io.2 }

/-- Multi-result declaration printer (formatMultipleAsDeclarations):
builds the name map in result order, fixes cross-schema references, then
emits declarations for the exported results joined by blank lines. -/
def formatMultipleAsDeclarations (results : List ExtractResult)
    (mapName : Str → MappedTypeName) (opts : DeclarationOptions) : Str :=
  let typeNameMap := results.foldl (fun m r => setA m r.schemaName (mapName r.schemaName)) []
  let fixedResults := results.map (fixResultNames typeNameMap)
  List.intercalate (cs "\n\n")
    ((fixedResults.filter (·.isExported)).map
      (fun r => formatAsDeclaration r (mapName r.schemaName) opts))

/-! Schema reference analyzer, union part
(schema-reference-analyzer.ts).  Initializer expressions are modelled by
a small syntax-tree type covering the node kinds the analyzer inspects. -/

/-- Inline cross-schema reference record (SchemaReferenceInfo). -/
structure SchemaReferenceInfo where
  fieldPath : Str
  refSchema : Str
  isArray : Bool
  isRecord : Bool
  isOptional : Bool
deriving DecidableEq, Repr

/-- Union member reference record (UnionReferenceInfo). -/
structure UnionReferenceInfo where
  memberSchemas : List Str
  isDiscriminated : Bool
  discriminatorKey : Option Str
deriving DecidableEq, Repr

/-- Expression nodes of the analyzed syntax tree. -/
inductive TsNode where
  | ident (name : Str)
  | strLit (value : Str)
  | arrayLit (elems : List TsNode)
  | call (callee : TsNode) (args : List TsNode)
  | propAccess (obj : TsNode) (prop : Str)
  | other

/-- Member collection from a literal array expression
(SchemaReferenceAnalyzer.extractSchemaArrayMembers): identifier elements
naming known schemas other than the current one, in element order. -/
def extractSchemaArrayMembers (node : TsNode) (schemaNames : List Str)
    (currentSchema : Str) : List Str :=
  match node with
  | .arrayLit elems =>
      elems.filterMap (fun e =>
        match e with
        | .ident n =>
            if schemaNames.contains n && n != currentSchema then some n else none
        | _ => none)
  | _ => []

/-- Parsing of z.discriminatedUnion(key, [members])
(parseDiscriminatedUnion): discriminator first, member array second. -/
def parseDiscriminatedUnion (args : List TsNode) (schemaNames : List Str)
    (currentSchema : Str) : Option UnionReferenceInfo :=
  match args with
  | a0 :: a1 :: _ =>
      let discriminatorKey : Option Str :=
        match a0 with
        | .strLit s => some s
        | _ => none
      let memberSchemas := extractSchemaArrayMembers a1 schemaNames currentSchema
      if memberSchemas.isEmpty then none
      else some ⟨memberSchemas, true, discriminatorKey⟩
  | _ => none

/-- Parsing of z.union([members]) (parseUnion). -/
def parseUnion (args : List TsNode) (schemaNames : List Str)
    (currentSchema : Str) : Option UnionReferenceInfo :=
  match args with
  | a0 :: _ =>
      let memberSchemas := extractSchemaArrayMembers a0 schemaNames currentSchema
      if memberSchemas.isEmpty then none
      else some ⟨memberSchemas, false, none⟩
  | [] => none

/-- Top-level recognition of the two union builders (findUnionReference):
a call rooted at the z namespace identifier. -/
def findUnionReference (node : TsNode) (schemaNames : List Str)
    (currentSchema : Str) : Option UnionReferenceInfo :=
  match node with
  | .call (.propAccess (.ident z) m) args =>
      if z = cs "z" then
        if m = cs "discriminatedUnion" then
          parseDiscriminatedUnion args schemaNames currentSchema
        else if m = cs "union" then parseUnion args schemaNames currentSchema
        else none
      else none
  | _ => none

/-- Union analysis over the declarations of a file
(analyzeUnionReferences); decls pairs each declared name with its
initializer expression. -/
def analyzeUnionReferences (decls : List (Str × TsNode)) (schemaNames : List Str) :
    List (Str × UnionReferenceInfo) :=
  decls.foldl
    (fun m d =>
      if schemaNames.contains d.1 then
        match findUnionReference d.2 schemaNames d.1 with
        | some u => setA m d.1 u
        | none => m
      else m)
    []

/-! Type extractor (extractor.ts).  The ts-morph program is modelled as a
map from file path to file state, a file state as the list of its
statements; the TypeScript checker queried by resolveType is an oracle
parameter from file state and alias name to an optional result text (the
deterministic post-processing of resolveType - line trimming, native
enum expansion and the collapse of zod-internal function types - is
folded into the oracle, being a pure function of the same two
arguments). -/

/-- One top-level statement of a source file, as far as the extractor
observes it: whether it is a type alias, its name, and its text. -/
structure Stmt where
  isTypeAlias : Bool
  name : Str
  text : Str
deriving DecidableEq, Repr

/-- Statement list of one file. -/
abbrev FileState := List Stmt

/-- File map of the ts-morph project. -/
abbrev ProjectState := Str → FileState

/-- Checker oracle: fully expanded text of a type alias, or failure. -/
abbrev Oracle := FileState → Str → Option Str

/-- Detected schema record (DetectedSchema in types.ts). -/
structure DetectedSchema where
  name : Str
  isExported : Bool
  line : Nat
  explicitType : Option Str
deriving DecidableEq, Repr

/-- Imported schema record (ImportedSchemaInfo in import-resolver.ts). -/
structure ImportedSchemaInfo where
  originalName : Str
  sourceFilePath : Str
  resolved : Bool
deriving DecidableEq, Repr

/-- Raw first-pass types of one schema (the rawTypes map entries). -/
structure RawType where
  input : Str
  output : Str
  isExported : Bool
deriving DecidableEq, Repr

/-- Text of the injected deep-normalize utility
(NORMALIZE_TYPE_DEFINITION in normalizer.ts). -/
def NORMALIZE_TYPE_TEXT : Str :=
  cs "type __Normalize<T> = T extends Date | RegExp | Error | Map<any, any> | Set<any> | WeakMap<any, any> | WeakSet<any> | Promise<any> | Function ? T : T extends (...args: infer A) => infer R ? (...args: __Normalize<A>) => __Normalize<R> : T extends readonly (infer U)[] ? readonly __Normalize<U>[] : T extends (infer U)[] ? __Normalize<U>[] : T extends string ? T extends object ? string : T : T extends number ? T extends object ? number : T : T extends boolean ? T extends object ? boolean : T : T extends bigint ? T extends object ? bigint : T : T extends object ? T extends infer O ? \x7b [K in keyof O as K extends symbol ? never : K]: __Normalize<O[K]> \x7d : never : T;"

/-- Injected normalize statement. -/
def normalizeStmt : Stmt := ⟨true, cs "__Normalize", NORMALIZE_TYPE_TEXT⟩

/-- Temporary alias builder (createTempTypeAlias in normalizer.ts); the
text field holds the right-hand side of the alias. -/
def createTempTypeAlias (schemaName : Str) (isInput : Bool) : Stmt :=
  if isInput then
    ⟨true, cs "__TempInput", cs "__Normalize<z.input<typeof " ++ schemaName ++ cs ">>"⟩
  else
    ⟨true, cs "__TempOutput", cs "__Normalize<z.output<typeof " ++ schemaName ++ cs ">>"⟩

/-- Names of the injected temporaries (TEMP_TYPE_NAMES). -/
def TEMP_TYPE_NAMES : List Str := [cs "__Normalize", cs "__TempInput", cs "__TempOutput"]

/-- Temporary injection (injectTemporaryTypes): statements are appended
at the end of the file, in memory only. -/
def injectTemporaryTypes (f : FileState) (schemaName : Str) : FileState :=
  f ++ [normalizeStmt, createTempTypeAlias schemaName true,
    createTempTypeAlias schemaName false]

/-- Removal of the first type alias with a given name, as
getTypeAlias(name).remove() behaves. -/
def removeFirstAlias : FileState → Str → FileState
  | [], _ => []
  | s :: t, n => if s.isTypeAlias && s.name == n then t else s :: removeFirstAlias t n

/-- Temporary cleanup (cleanupTemporaryTypes). -/
def cleanupTemporaryTypes (f : FileState) : FileState :=
  TEMP_TYPE_NAMES.foldl removeFirstAlias f

/-- Explicit-type injection (injectExplicitType): a single alias carrying
the captured annotation text, without the normalize wrapper. -/
def injectExplicitType (f : FileState) (explicitType : Str) : FileState :=
  f ++ [⟨true, cs "__TempExplicit", explicitType⟩]

/-- Explicit-type cleanup (cleanupExplicitType). -/
def cleanupExplicitType (f : FileState) : FileState :=
  removeFirstAlias f (cs "__TempExplicit")

/-- Alias presence test, as getTypeAlias(name) being found. -/
def hasAliasNamed (f : FileState) (n : Str) : Bool :=
  f.any (fun s => s.isTypeAlias && s.name == n)

/-- Alias resolution (resolveType): a missing alias raises the
checker-resolution failure; otherwise the oracle answers or fails. -/
def resolveType (oracle : Oracle) (f : FileState) (typeName : Str) : Except Str Str :=
  if hasAliasNamed f typeName then
    match oracle f typeName with
    | some t => .ok t
    | none => .error (cs "checker query failure")
  else .error (cs "Failed to find type alias: " ++ typeName)

/-- Identifier test (isValidIdentifier), the ASCII regex of the source. -/
def isValidIdentifier (s : Str) : Bool :=
  match s with
  | [] => false
  | c :: t =>
      (c.isAlpha || c = '_' || c = '$') &&
        t.all (fun d => d.isAlpha || d.isDigit || d = '_' || d = '$')

/-- Getter-based self-reference patch of the first pass (extractor.ts
lines 216-238): applied only when the schema has directly
self-referencing getter fields; a fully collapsed any output falls back
to the input text. -/
def getterStep (gmap : List (Str × GetterFieldMap)) (schemaName : Str)
    (inputType outputType : Str) : Str × Str :=
  match lookupA gmap schemaName with
  | some getterFields =>
      if hasSelfReferences getterFields then
        let inputTypeName := schemaName ++ cs "Input"
        let outputTypeName := schemaName ++ cs "Output"
        let originalInputType := inputType
        let input1 := resolveAnyTypes inputType getterFields inputTypeName
        let output1 :=
          if outputType == cs "any" then
            resolveAnyTypes originalInputType getterFields outputTypeName
          else resolveAnyTypes outputType getterFields outputTypeName
        (input1, output1)
      else (inputType, outputType)
  | none => (inputType, outputType)

/-- First pass over the local schemas: inject, query, patch, always clean
up; a failed query propagates after the cleanup of the finally block. -/
def extractLocals (oracle : Oracle) (gmap : List (Str × GetterFieldMap)) :
    List DetectedSchema → FileState → List (Str × RawType) →
      Except Str (List (Str × RawType)) × FileState
  | [], f, acc => (.ok acc, f)
  | s :: rest, f, acc =>
      match s.explicitType with
      | some t =>
          let f1 := injectExplicitType f t
          (match resolveType oracle f1 (cs "__TempExplicit") with
            | .ok r =>
                extractLocals oracle gmap rest (cleanupExplicitType f1)
                  (setA acc s.name ⟨r, r, s.isExported⟩)
            | .error e => (.error e, cleanupExplicitType f1))
      | none =>
          let f1 := injectTemporaryTypes f s.name
          (match resolveType oracle f1 (cs "__TempInput") with
            | .error e => (.error e, cleanupTemporaryTypes f1)
            | .ok inputType0 =>
                match resolveType oracle f1 (cs "__TempOutput") with
                | .error e => (.error e, cleanupTemporaryTypes f1)
                | .ok outputType0 =>
                    let io := getterStep gmap s.name inputType0 outputType0
                    extractLocals oracle gmap rest (cleanupTemporaryTypes f1)
                      (setA acc s.name ⟨io.1, io.2, s.isExported⟩))

/-- Pointwise project update. -/
def updateProj (p : ProjectState) (path : Str) (f : FileState) : ProjectState :=
  fun q => if q = path then f else p q

/-- First pass over the imported schemas: same scoped inject, query and
cleanup discipline against the origin file, with query failures swallowed
by the catch of the source. -/
def extractImports (oracle : Oracle) :
    List (Str × ImportedSchemaInfo) → ProjectState → List (Str × RawType) →
      List (Str × RawType) × ProjectState
  | [], p, acc => (acc, p)
  | (localName, info) :: rest, p, acc =>
      if !info.resolved then extractImports oracle rest p acc
      else
        let g := p info.sourceFilePath
        let g1 := injectTemporaryTypes g info.originalName
        let res : Except Str (Str × Str) := do
          let i ← resolveType oracle g1 (cs "__TempInput")
          let o ← resolveType oracle g1 (cs "__TempOutput")
          pure (i, o)
        let p1 := updateProj p info.sourceFilePath (cleanupTemporaryTypes g1)
        match res with
        | .ok io => extractImports oracle rest p1 (setA acc localName ⟨io.1, io.2, false⟩)
        | .error _ => extractImports oracle rest p1 acc

/-- Brace-depth and string-aware scan for the end of a field value
(replaceSchemaReference, inner while loop): stops at an unmatched closer
or a top-level semicolon. -/
def rsrScan : Str → Nat → Bool → Nat → Nat
  | [], _, _, endIdx => endIdx
  | c :: t, depth, inString, endIdx =>
      if c = '"' || c = '\'' then rsrScan t depth (!inString) (endIdx + 1)
      else if !inString then
        if c = '\x7b' || c = '[' || c = '(' then rsrScan t (depth + 1) inString (endIdx + 1)
        else if c = '\x7d' || c = ']' || c = ')' then
          if depth = 0 then endIdx else rsrScan t (depth - 1) inString (endIdx + 1)
        else if c = ';' && depth = 0 then endIdx
        else rsrScan t depth inString (endIdx + 1)
      else rsrScan t depth inString (endIdx + 1)

/-- Attempt of replaceSchemaReference for one field pattern: locate the
field, scan its value span, and substitute the generated type name when
the span still looks like an unexpanded inline object, the raw referenced
text, or a record index signature. -/
def rsrTryPattern (typeStr : Str) (pattern : Str) (ref : SchemaReferenceInfo)
    (refTypeStr refTypeName replacement0 : Str) : Option Str :=
  match idxOfFrom typeStr pattern 0 with
  | none => none
  | some idx =>
      let valueStart := idx + pattern.length
      let endIdx := rsrScan (typeStr.drop valueStart) 0 false valueStart
      let currentValue := trimChars (subRange typeStr valueStart endIdx)
      let v1 :=
        if (cs "readonly").isPrefixOf currentValue &&
            (currentValue.drop 8).head?.any isWsChar then
          (currentValue.drop 8).dropWhile isWsChar
        else currentValue
      let v2 := if (cs "[]").isSuffixOf v1 then v1.dropLast.dropLast else v1
      let valueToCheck := trimChars v2
      if (cs "\x7b").isPrefixOf valueToCheck || valueToCheck == refTypeStr ||
          hasSub (cs "[x: string]:") currentValue then
        let replacement1 :=
          if ref.isRecord then cs "\x7b [x: string]: " ++ refTypeName ++ cs " \x7d"
          else replacement0
        let replacement2 :=
          if ref.isArray && (cs "readonly ").isPrefixOf currentValue then
            cs "readonly " ++ replacement1
          else replacement1
        some (typeStr.take valueStart ++ replacement2 ++ typeStr.drop endIdx)
      else none

/-- Inline reference substitution (replaceSchemaReference): the plain and
the optional field patterns are tried in order; when neither span
qualifies the text is returned unchanged. -/
def replaceSchemaReference (typeStr : Str) (ref : SchemaReferenceInfo)
    (refTypeStr refTypeName : Str) : Str :=
  let replacement0 := if ref.isArray then refTypeName ++ cs "[]" else refTypeName
  match rsrTryPattern typeStr (ref.fieldPath ++ cs ": ") ref refTypeStr refTypeName
      replacement0 with
  | some r => r
  | none =>
      match rsrTryPattern typeStr (ref.fieldPath ++ cs "?: ") ref refTypeStr refTypeName
          replacement0 with
      | some r => r
      | none => typeStr

/-- Entry of the second pass for a schema outside the union branch:
reference substitution against exported raw types, then the file-wide
self-reference renaming of explicit-type schemas. -/
def secondPassEntry (rawTypes : List (Str × RawType))
    (refMap : List (Str × List SchemaReferenceInfo)) (s : DetectedSchema)
    (raw : RawType) (brands : List BrandInfo) : ExtractResult :=
  let refs := (lookupA refMap s.name).getD []
  let io := refs.foldl
    (fun (p : Str × Str) ref =>
      match lookupA rawTypes ref.refSchema with
      | none => p
      | some refRaw =>
          if !refRaw.isExported then p
          else
            (replaceSchemaReference p.1 ref refRaw.input (ref.refSchema ++ cs "Input"),
             replaceSchemaReference p.2 ref refRaw.output (ref.refSchema ++ cs "Output")))
    (raw.input, raw.output)
  let io2 :=
    match s.explicitType with
    | some tn =>
        if isValidIdentifier tn then
          (wbReplaceAll io.1 tn (s.name ++ cs "Input"),
           wbReplaceAll io.2 tn (s.name ++ cs "Output"))
        else io
    | none => io
  ⟨s.name, io2.1, io2.2, raw.isExported, none, none, brands⟩

/-- Second pass over the local schemas (extractor.ts lines 259-324):
union references are substituted wholesale by the joined member type
names, other schemas go through reference substitution. -/
def secondPass (rawTypes : List (Str × RawType))
    (refMap : List (Str × List SchemaReferenceInfo))
    (unionMap : List (Str × UnionReferenceInfo))
    (brandMap : List (Str × List BrandInfo)) : List DetectedSchema → List ExtractResult
  | [] => []
  | s :: rest =>
      let tail := secondPass rawTypes refMap unionMap brandMap rest
      match lookupA rawTypes s.name with
      | none => tail
      | some raw =>
          let brands := (lookupA brandMap s.name).getD []
          match lookupA unionMap s.name with
          | some u =>
              if !u.memberSchemas.isEmpty then
                (⟨s.name,
                  List.intercalate (cs " | ") (u.memberSchemas.map (· ++ cs "Input")),
                  List.intercalate (cs " | ") (u.memberSchemas.map (· ++ cs "Output")),
                  raw.isExported, none, none, brands⟩ : ExtractResult) :: tail
              else secondPassEntry rawTypes refMap s raw brands :: tail
          | none => secondPassEntry rawTypes refMap s raw brands :: tail

/-- Analyzer outputs consumed by extractMultipleFromSourceFile; the
extractor computes them from the syntax tree before the first pass. -/
structure AnalysisEnv where
  importedSchemas : List (Str × ImportedSchemaInfo)
  getterFieldMap : List (Str × GetterFieldMap)
  referenceMap : List (Str × List SchemaReferenceInfo)
  unionReferenceMap : List (Str × UnionReferenceInfo)
  brandMap : List (Str × List BrandInfo)

/-- Orchestrator (extractMultipleFromSourceFile): imported schemas are
resolved first against their origin files, then the local schemas; the
results list places imported entries before local ones, and the project
state is threaded through every injection and cleanup. -/
def extractMultipleFromSourceFile (oracle : Oracle) (fp : Str) (proj : ProjectState)
    (schemas : List DetectedSchema) (env : AnalysisEnv) :
    Except Str (List ExtractResult) × ProjectState :=
  let ip := extractImports oracle env.importedSchemas proj []
  let f := ip.2 fp
  let el := extractLocals oracle env.getterFieldMap schemas f ip.1
  let p2 := updateProj ip.2 fp el.2
  match el.1 with
  | .error e => (.error e, p2)
  | .ok rawTypes =>
      let importedResults := env.importedSchemas.filterMap
        (fun pr => (lookupA rawTypes pr.1).map
          (fun raw => (⟨pr.1, raw.input, raw.output, false, none, none, []⟩ : ExtractResult)))
      let localResults :=
        secondPass rawTypes env.referenceMap env.unionReferenceMap env.brandMap schemas
      (.ok (importedResults ++ localResults), p2)

/-- Name-filtered extraction (extractMultiple): requested names missing
from the detected set are given a fabricated detected entry. -/
def extractMultiple (oracle : Oracle) (fp : Str) (proj : ProjectState)
    (allSchemas : List DetectedSchema) (env : AnalysisEnv) (schemaNames : List Str) :
    Except Str (List ExtractResult) × ProjectState :=
  let schemas := schemaNames.map
    (fun n => (allSchemas.find? (fun s => s.name == n)).getD ⟨n, true, 0, none⟩)
  extractMultipleFromSourceFile oracle fp proj schemas env

/-- Single-schema extraction (extract): delegates to extractMultiple and
raises the not-found error on an empty result list. -/
def extract (oracle : Oracle) (fp : Str) (proj : ProjectState)
    (allSchemas : List DetectedSchema) (env : AnalysisEnv) (schemaName : Str) :
    Except Str ExtractResult :=
  match (extractMultiple oracle fp proj allSchemas env [schemaName]).1 with
  | .error e => .error e
  | .ok results =>
      match results with
      | [] => .error (cs "Schema \"" ++ schemaName ++ cs "\" not found in " ++ fp)
      | r :: _ => .ok r

/-! Command line front end (cli.ts): option merging, eager validation and
the position of validation in the run sequence. -/

/-- Raw CLI options as parsed by commander (CLIOptions in cli.ts);
absent flags are undefined. -/
structure CLIOptions where
  project : Option Str
  schemas : Option Str
  inputOnly : Option Bool
  outputOnly : Option Bool
  mergeSame : Option Bool
  suffix : Option Str
  inputSuffix : Option Str
  outputSuffix : Option Str
  map : Option Str
  outDir : Option Str
  outFile : Option Str
  outPattern : Option Str
  declaration : Option Bool
  dryRun : Option Bool
  withDescriptions : Option Bool
  verbose : Option Bool
deriving DecidableEq, Repr

/-- Effective configuration (ZinferConfig), after config-file loading and
CLI merging. -/
structure ZinferConfig where
  includeFiles : Option (List Str)  -- the include field of the source
  project : Option Str
  schemas : Option (List Str)
  inputOnly : Option Bool
  outputOnly : Option Bool
  mergeSame : Option Bool
  suffix : Option Str
  inputSuffix : Option Str
  outputSuffix : Option Str
  map : Option (List (Str × Str))
  outDir : Option Str
  outFile : Option Str
  outPattern : Option Str
  declaration : Option Bool
  withDescriptions : Option Bool
  verbose : Option Bool
deriving DecidableEq, Repr

/-- Custom mapping parser (parseCustomMap): comma-separated
colon-delimited pairs, trimmed, dropping incomplete ones. -/
def parseCustomMap (mapStr : Str) : List (Str × Str) :=
  (splitOnChar ',' mapStr).foldl
    (fun r pair =>
      let parts := (splitOnChar ':' pair).map trimChars
      let fromName := parts.getD 0 []
      let toName := parts.getD 1 []
      if fromName ≠ [] ∧ toName ≠ [] then setA r fromName toName else r)
    []

/-- Option merging (mergeCliWithConfig): CLI values override config-file
values field by field when defined. -/
def mergeCliWithConfig (cli : CLIOptions) (fileConfig : ZinferConfig) : ZinferConfig :=
  let m := fileConfig
  let m := match cli.project with | some v => { m with project := some v } | none => m
  let m := match cli.schemas with
    | some v => { m with schemas := some ((splitOnChar ',' v).map trimChars) }
    | none => m
  let m := match cli.inputOnly with | some v => { m with inputOnly := some v } | none => m
  let m := match cli.outputOnly with | some v => { m with outputOnly := some v } | none => m
  let m := match cli.mergeSame with | some v => { m with mergeSame := some v } | none => m
  let m := match cli.suffix with | some v => { m with suffix := some v } | none => m
  let m := match cli.inputSuffix with | some v => { m with inputSuffix := some v } | none => m
  let m := match cli.outputSuffix with
    | some v => { m with outputSuffix := some v }
    | none => m
  let m := match cli.map with | some v => { m with map := some (parseCustomMap v) } | none => m
  let m := match cli.outDir with | some v => { m with outDir := some v } | none => m
  let m := match cli.outFile with | some v => { m with outFile := some v } | none => m
  let m := match cli.outPattern with | some v => { m with outPattern := some v } | none => m
  let m := match cli.declaration with
    | some v => { m with declaration := some v }
    | none => m
  let m := match cli.withDescriptions with
    | some v => { m with withDescriptions := some v }
    | none => m
  match cli.verbose with | some v => { m with verbose := some v } | none => m

/-- Invalid-option failure (InvalidOptionError in errors.ts): formatted
message and corrective hint. -/
structure InvalidOptionE where
  message : Str
  hint : Option Str
deriving DecidableEq, Repr

/-- Constructor mirroring the InvalidOptionError message format. -/
def invalidOption (optionName reason : Str) (hint : Option Str) : InvalidOptionE :=
  ⟨cs "Invalid option \"" ++ optionName ++ cs "\": " ++ reason, hint⟩

/-- Per-entry validation of the custom map (validateOptions, map part). -/
def validateMapEntries : List (Str × Str) → Except InvalidOptionE Unit
  | [] => .ok ()
  | (k, v) :: t =>
      if trimChars k = [] then
        .error (invalidOption (cs "map") (cs "Mapping key cannot be empty")
          (some (cs "Use format 'SchemaName:TypeName' for custom mappings")))
      else if trimChars v = [] then
        .error (invalidOption (cs "map")
          (cs "Mapping value for \"" ++ k ++ cs "\" cannot be empty")
          (some (cs "Use format 'SchemaName:TypeName' for custom mappings")))
      else validateMapEntries t

/-- Per-entry validation of the schema filter (validateOptions, schemas
part). -/
def validateSchemaEntries : List Str → Except InvalidOptionE Unit
  | [] => .ok ()
  | s :: t =>
      if trimChars s = [] then
        .error (invalidOption (cs "schemas") (cs "Schema name cannot be empty")
          (some (cs "Provide valid schema names separated by commas")))
      else validateSchemaEntries t

/-- Eager option validation (validateOptions in cli.ts): the mutual
exclusion of inputOnly and outputOnly is checked first, then suffix
shapes, output-target conflicts, map entries and the schema filter. -/
def validateOptions (config : ZinferConfig) : Except InvalidOptionE Unit :=
  if config.inputOnly.getD false && config.outputOnly.getD false then
    .error (invalidOption (cs "inputOnly/outputOnly")
      (cs "Cannot use both --input-only and --output-only at the same time")
      (some (cs "Choose either --input-only or --output-only, not both")))
  else if (config.suffix.map (fun s => (trimChars s).isEmpty)).getD false then
    .error (invalidOption (cs "suffix") (cs "Suffix cannot be an empty string")
      (some (cs "Provide a valid suffix like 'Schema' or remove the option")))
  else if (config.inputSuffix.map (fun s => (trimChars s).isEmpty)).getD false then
    .error (invalidOption (cs "inputSuffix") (cs "Input suffix cannot be an empty string")
      (some (cs "Provide a valid suffix like 'Input' or remove the option")))
  else if (config.outputSuffix.map (fun s => (trimChars s).isEmpty)).getD false then
    .error (invalidOption (cs "outputSuffix")
      (cs "Output suffix cannot be an empty string")
      (some (cs "Provide a valid suffix like 'Output' or remove the option")))
  else
    let truthy : Option Str → Bool := fun o =>
      match o with
      | some s => !s.isEmpty
      | none => false
    let outputOptionsCount :=
      ([config.outDir, config.outFile, config.outPattern].filter truthy).length
    if outputOptionsCount > 1 && truthy config.outFile then
      .error (invalidOption (cs "outFile")
        (cs "Cannot use --outFile together with --outDir or --outPattern")
        (some (cs "Use either --outFile for a single output file, or --outDir/--outPattern for multiple files")))
    else
      match
        (match config.map with
          | some entries => validateMapEntries entries
          | none => .ok ()) with
      | .error e => .error e
      | .ok _ =>
          match config.schemas with
          | some schemas => validateSchemaEntries schemas
          | none => .ok ()

/-- Externally visible work steps of runCLI, in execution order;
configLoad stands for the file-system access of ConfigLoader.load
(existsSync probes and config-file reading), inputFileResolution for the
first access to the input files (FileResolver.resolveInputFiles). -/
inductive CLIEvent where
  | configLoad
  | inputFileResolution
  | extractionWork
  | outputWrite
deriving DecidableEq, Repr

/-- Failure cases surfaced by the modelled portion of runCLI. -/
inductive CLIError where
  | invalid (e : InvalidOptionE)
  | noFilesMatched (patterns : List Str)
  | other (msg : Str)
deriving DecidableEq, Repr

/-- Run sequence of runCLI up to input-file resolution: config loading
(file I/O) happens first and feeds the merge, validation runs next, and
only then are input files resolved and handed to the remaining pipeline,
which is abstracted as a continuation. -/
def runCLIModel (files : List Str) (options : CLIOptions) (fileConfig : ZinferConfig)
    (pipeline : ZinferConfig → List Str → Except CLIError Unit × List CLIEvent) :
    Except CLIError Unit × List CLIEvent :=
  let ev0 : List CLIEvent := [CLIEvent.configLoad]
  let config := mergeCliWithConfig options fileConfig
  match validateOptions config with
  | .error e => (.error (.invalid e), ev0)
  | .ok _ =>
      let inputFiles := if !files.isEmpty then files else config.includeFiles.getD []
      if inputFiles.isEmpty then
        (.error (.noFilesMatched [cs "(no files specified)"]), ev0)
      else
        let pr := pipeline config inputFiles
        (pr.1, ev0 ++ CLIEvent.inputFileResolution :: pr.2)

/-! State-restoration lemmas for the scoped inject-query-cleanup
discipline of the extractor. -/

/-- Absence of every temporary alias name from a file: the precondition
under which cleanup after injection is exact restoration. -/
def fileClean (f : FileState) : Bool :=
  (TEMP_TYPE_NAMES ++ [cs "__TempExplicit"]).all (fun n => !hasAliasNamed f n)

theorem fileClean_iff (f : FileState) : fileClean f = true ↔
    hasAliasNamed f (cs "__Normalize") = false ∧
    hasAliasNamed f (cs "__TempInput") = false ∧
    hasAliasNamed f (cs "__TempOutput") = false ∧
    hasAliasNamed f (cs "__TempExplicit") = false := by
  simp [fileClean, TEMP_TYPE_NAMES]

theorem removeFirstAlias_append (f g : FileState) (n : Str)
    (h : hasAliasNamed f n = false) :
    removeFirstAlias (f ++ g) n = f ++ removeFirstAlias g n := by
  induction f with
  | nil => simp
  | cons s t ih =>
      rw [hasAliasNamed, List.any_cons, Bool.or_eq_false_iff] at h
      rw [List.cons_append, removeFirstAlias]
      rw [h.1]
      simp only [if_false, Bool.false_eq_true, List.cons_append]
      rw [ih h.2]

theorem cleanupTemporary_inject (f : FileState) (sn : Str)
    (h1 : hasAliasNamed f (cs "__Normalize") = false)
    (h2 : hasAliasNamed f (cs "__TempInput") = false)
    (h3 : hasAliasNamed f (cs "__TempOutput") = false) :
    cleanupTemporaryTypes (injectTemporaryTypes f sn) = f := by
  have e1 : removeFirstAlias
      [normalizeStmt, createTempTypeAlias sn true, createTempTypeAlias sn false]
      (cs "__Normalize") = [createTempTypeAlias sn true, createTempTypeAlias sn false] := rfl
  have e2 : removeFirstAlias [createTempTypeAlias sn true, createTempTypeAlias sn false]
      (cs "__TempInput") = [createTempTypeAlias sn false] := rfl
  have e3 : removeFirstAlias [createTempTypeAlias sn false] (cs "__TempOutput") = [] := rfl
  rw [cleanupTemporaryTypes, TEMP_TYPE_NAMES, injectTemporaryTypes]
  simp only [List.foldl_cons, List.foldl_nil]
  rw [removeFirstAlias_append _ _ _ h1, e1,
    removeFirstAlias_append _ _ _ h2, e2,
    removeFirstAlias_append _ _ _ h3, e3,
    List.append_nil]

theorem cleanupExplicit_inject (f : FileState) (t : Str)
    (h : hasAliasNamed f (cs "__TempExplicit") = false) :
    cleanupExplicitType (injectExplicitType f t) = f := by
  rw [cleanupExplicitType, injectExplicitType, removeFirstAlias_append _ _ _ h]
  simp [removeFirstAlias]

theorem extractLocals_state (oracle : Oracle) (gmap : List (Str × GetterFieldMap)) :
    ∀ (schemas : List DetectedSchema) (f : FileState) (acc : List (Str × RawType)),
      fileClean f = true → (extractLocals oracle gmap schemas f acc).2 = f := by
  intro schemas
  induction schemas with
  | nil => intro f acc _; rfl
  | cons s rest ih =>
      intro f acc h
      obtain ⟨h1, h2, h3, h4⟩ := (fileClean_iff f).mp h
      cases het : s.explicitType with
      | some t =>
          have hc : cleanupExplicitType (injectExplicitType f t) = f :=
            cleanupExplicit_inject f t h4
          cases hr : resolveType oracle (injectExplicitType f t) (cs "__TempExplicit") with
          | ok r =>
              simp only [extractLocals, het, hr]
              rw [hc]
              exact ih f _ h
          | error e => simp only [extractLocals, het, hr]; exact hc
      | none =>
          have hc : cleanupTemporaryTypes (injectTemporaryTypes f s.name) = f :=
            cleanupTemporary_inject f s.name h1 h2 h3
          cases hr1 : resolveType oracle (injectTemporaryTypes f s.name) (cs "__TempInput") with
          | error e => simp only [extractLocals, het, hr1]; exact hc
          | ok i0 =>
              cases hr2 : resolveType oracle (injectTemporaryTypes f s.name)
                  (cs "__TempOutput") with
              | error e => simp only [extractLocals, het, hr1, hr2]; exact hc
              | ok o0 =>
                  simp only [extractLocals, het, hr1, hr2]
                  rw [hc]
                  exact ih f _ h

theorem updateProj_self (p : ProjectState) (path : Str) :
    updateProj p path (p path) = p := by
  funext q
  simp only [updateProj]
  split
  · rename_i hq; rw [hq]
  · rfl

theorem extractImports_state (oracle : Oracle) :
    ∀ (imports : List (Str × ImportedSchemaInfo)) (p : ProjectState)
      (acc : List (Str × RawType)),
      (∀ e ∈ imports, fileClean (p e.2.sourceFilePath) = true) →
      (extractImports oracle imports p acc).2 = p := by
  intro imports
  induction imports with
  | nil => intro p acc _; rfl
  | cons pr rest ih =>
      intro p acc h
      obtain ⟨ln, info⟩ := pr
      have hhead := h (ln, info) (List.mem_cons_self _ _)
      have htail : ∀ e ∈ rest, fileClean (p e.2.sourceFilePath) = true :=
        fun e he => h e (List.mem_cons_of_mem _ he)
      obtain ⟨g1, g2, g3, _⟩ := (fileClean_iff _).mp hhead
      have hg : cleanupTemporaryTypes
          (injectTemporaryTypes (p info.sourceFilePath) info.originalName) =
          p info.sourceFilePath :=
        cleanupTemporary_inject _ _ g1 g2 g3
      cases hres : info.resolved with
      | false => simp only [extractImports, hres]; exact ih p acc htail
      | true =>
          simp only [extractImports, hres, Bool.not_true, hg, updateProj_self]
          cases hq : (do
            let i ← resolveType oracle
              (injectTemporaryTypes (p info.sourceFilePath) info.originalName)
              (cs "__TempInput")
            let o ← resolveType oracle
              (injectTemporaryTypes (p info.sourceFilePath) info.originalName)
              (cs "__TempOutput")
            pure (i, o) : Except Str (Str × Str)) with
          | ok io => simp only; exact ih p _ htail
          | error e => simp only; exact ih p acc htail

/-- Whole-run state restoration: for every oracle outcome, success or
failure, the project is returned to its pre-extraction contents. -/
theorem extractMultipleFromSourceFile_state (oracle : Oracle) (fp : Str)
    (proj : ProjectState) (schemas : List DetectedSchema) (env : AnalysisEnv)
    (hlocal : fileClean (proj fp) = true)
    (himp : ∀ e ∈ env.importedSchemas, fileClean (proj e.2.sourceFilePath) = true) :
    (extractMultipleFromSourceFile oracle fp proj schemas env).2 = proj := by
  have hI : (extractImports oracle env.importedSchemas proj []).2 = proj :=
    extractImports_state oracle env.importedSchemas proj [] himp
  simp only [extractMultipleFromSourceFile, hI]
  have hL := extractLocals_state oracle env.getterFieldMap schemas (proj fp)
    (extractImports oracle env.importedSchemas proj []).1 hlocal
  rw [hL, updateProj_self]
  cases (extractLocals oracle env.getterFieldMap schemas (proj fp)
      (extractImports oracle env.importedSchemas proj []).1).1 with
  | ok rawTypes => rfl
  | error e => rfl

/-- C1: extraction restores the program state: the injected temporary
type aliases are removed before returning, on the success path and on the
error path alike (the state equality holds for every oracle outcome), and
invoking extraction twice on an unchanged file yields identical
ExtractResult lists and leaves the file contents identical to before
extraction, provided the file and the imported files carried no alias
with a temporary name to begin with. -/
theorem c1_extraction_idempotent (oracle : Oracle) (fp : Str) (proj : ProjectState)
    (schemas : List DetectedSchema) (env : AnalysisEnv)
    (hlocal : fileClean (proj fp) = true)
    (himp : ∀ e ∈ env.importedSchemas, fileClean (proj e.2.sourceFilePath) = true) :
    (extractMultipleFromSourceFile oracle fp proj schemas env).2 = proj ∧
    extractMultipleFromSourceFile oracle fp
        ((extractMultipleFromSourceFile oracle fp proj schemas env).2) schemas env =
      extractMultipleFromSourceFile oracle fp proj schemas env := by
  have h := extractMultipleFromSourceFile_state oracle fp proj schemas env hlocal himp
  exact ⟨h, by rw [h]⟩

/-- Witness for C1 at a concrete file with one local schema and one
resolved import. -/
theorem c1_extraction_idempotent_witness :
    (extractMultipleFromSourceFile (fun _ _ => some (cs "T")) (cs "/a.ts")
        (fun _ => [⟨false, cs "UserSchema", cs "z.object"⟩])
        [⟨cs "UserSchema", true, 1, none⟩]
        ⟨[(cs "B", ⟨cs "B", cs "/b.ts", true⟩)], [], [], [], []⟩).2 =
      (fun _ => [⟨false, cs "UserSchema", cs "z.object"⟩]) ∧
    extractMultipleFromSourceFile (fun _ _ => some (cs "T")) (cs "/a.ts")
        ((extractMultipleFromSourceFile (fun _ _ => some (cs "T")) (cs "/a.ts")
          (fun _ => [⟨false, cs "UserSchema", cs "z.object"⟩])
          [⟨cs "UserSchema", true, 1, none⟩]
          ⟨[(cs "B", ⟨cs "B", cs "/b.ts", true⟩)], [], [], [], []⟩).2)
        [⟨cs "UserSchema", true, 1, none⟩]
        ⟨[(cs "B", ⟨cs "B", cs "/b.ts", true⟩)], [], [], [], []⟩ =
      extractMultipleFromSourceFile (fun _ _ => some (cs "T")) (cs "/a.ts")
        (fun _ => [⟨false, cs "UserSchema", cs "z.object"⟩])
        [⟨cs "UserSchema", true, 1, none⟩]
        ⟨[(cs "B", ⟨cs "B", cs "/b.ts", true⟩)], [], [], [], []⟩ :=
  c1_extraction_idempotent _ _ _ _ _ (by decide) (by decide)

/-! Success-path lemmas for a total oracle, used by the claims about the
shape of the result list. -/

theorem hasAliasNamed_inject_temp_input (f : FileState) (sn : Str) :
    hasAliasNamed (injectTemporaryTypes f sn) (cs "__TempInput") = true := by
  rw [hasAliasNamed, injectTemporaryTypes, List.any_append]
  have h : [normalizeStmt, createTempTypeAlias sn true, createTempTypeAlias sn false].any
      (fun s => s.isTypeAlias && s.name == cs "__TempInput") = true := rfl
  rw [h, Bool.or_true]

theorem hasAliasNamed_inject_temp_output (f : FileState) (sn : Str) :
    hasAliasNamed (injectTemporaryTypes f sn) (cs "__TempOutput") = true := by
  rw [hasAliasNamed, injectTemporaryTypes, List.any_append]
  have h : [normalizeStmt, createTempTypeAlias sn true, createTempTypeAlias sn false].any
      (fun s => s.isTypeAlias && s.name == cs "__TempOutput") = true := rfl
  rw [h, Bool.or_true]

theorem hasAliasNamed_inject_explicit (f : FileState) (t : Str) :
    hasAliasNamed (injectExplicitType f t) (cs "__TempExplicit") = true := by
  rw [hasAliasNamed, injectExplicitType, List.any_append]
  have h : [(⟨true, cs "__TempExplicit", t⟩ : Stmt)].any
      (fun s => s.isTypeAlias && s.name == cs "__TempExplicit") = true := rfl
  rw [h, Bool.or_true]

theorem lookupA_setA_self {β : Type} (m : List (Str × β)) (k : Str) (v : β) :
    lookupA (setA m k v) k = some v := by
  induction m with
  | nil => simp [setA, lookupA]
  | cons p t ih =>
      obtain ⟨k', v'⟩ := p
      rw [setA]
      by_cases hk : k' = k
      · simp [hk, lookupA]
      · rw [if_neg hk]
        rw [lookupA, List.find?]
        have : (fun q => q.1 == k) (k', v') = false := by
          simp only [beq_eq_false_iff_ne, ne_eq]
          exact hk
        simp only [this]
        exact ih

/-- First pass on a single schema under a total oracle: it always
produces a raw entry for the schema name. -/
theorem extractLocals_singleton_ok (oracle : Oracle) (gmap : List (Str × GetterFieldMap))
    (s : DetectedSchema) (f : FileState) (acc : List (Str × RawType))
    (htotal : ∀ g m, (oracle g m).isSome) :
    ∃ raw, (extractLocals oracle gmap [s] f acc).1 = .ok (setA acc s.name raw) := by
  cases het : s.explicitType with
  | some t =>
      cases ho : oracle (injectExplicitType f t) (cs "__TempExplicit") with
      | none =>
          have hh := htotal (injectExplicitType f t) (cs "__TempExplicit")
          rw [ho] at hh
          simp at hh
      | some r =>
          refine ⟨⟨r, r, s.isExported⟩, ?_⟩
          have hr : resolveType oracle (injectExplicitType f t) (cs "__TempExplicit") =
              .ok r := by
            rw [resolveType, hasAliasNamed_inject_explicit, if_pos rfl, ho]
          simp only [extractLocals, het, hr]
  | none =>
      cases ho1 : oracle (injectTemporaryTypes f s.name) (cs "__TempInput") with
      | none =>
          have hh := htotal (injectTemporaryTypes f s.name) (cs "__TempInput")
          rw [ho1] at hh
          simp at hh
      | some i0 =>
          cases ho2 : oracle (injectTemporaryTypes f s.name) (cs "__TempOutput") with
          | none =>
              have hh := htotal (injectTemporaryTypes f s.name) (cs "__TempOutput")
              rw [ho2] at hh
              simp at hh
          | some o0 =>
              have hr1 : resolveType oracle (injectTemporaryTypes f s.name)
                  (cs "__TempInput") = .ok i0 := by
                rw [resolveType, hasAliasNamed_inject_temp_input, if_pos rfl, ho1]
              have hr2 : resolveType oracle (injectTemporaryTypes f s.name)
                  (cs "__TempOutput") = .ok o0 := by
                rw [resolveType, hasAliasNamed_inject_temp_output, if_pos rfl, ho2]
              refine ⟨⟨(getterStep gmap s.name i0 o0).1, (getterStep gmap s.name i0 o0).2,
                s.isExported⟩, ?_⟩
              simp only [extractLocals, het, hr1, hr2]

/-- Second pass on a single schema whose raw entry is present: exactly
one result is emitted and it carries the schema name. -/
theorem secondPass_singleton (rawTypes : List (Str × RawType))
    (refMap : List (Str × List SchemaReferenceInfo))
    (unionMap : List (Str × UnionReferenceInfo))
    (brandMap : List (Str × List BrandInfo)) (s : DetectedSchema) (raw : RawType)
    (hlook : lookupA rawTypes s.name = some raw) :
    ∃ e, secondPass rawTypes refMap unionMap brandMap [s] = [e] ∧
      e.schemaName = s.name := by
  cases hu : lookupA unionMap s.name with
  | some u =>
      cases hm : u.memberSchemas.isEmpty with
      | true =>
          refine ⟨secondPassEntry rawTypes refMap s raw ((lookupA brandMap s.name).getD []),
            ?_, rfl⟩
          simp [secondPass, hlook, hu, hm]
      | false =>
          refine ⟨⟨s.name,
            List.intercalate (cs " | ") (u.memberSchemas.map (· ++ cs "Input")),
            List.intercalate (cs " | ") (u.memberSchemas.map (· ++ cs "Output")),
            raw.isExported, none, none, (lookupA brandMap s.name).getD []⟩, ?_, rfl⟩
          simp [secondPass, hlook, hu, hm]
  | none =>
      refine ⟨secondPassEntry rawTypes refMap s raw ((lookupA brandMap s.name).getD []),
        ?_, rfl⟩
      simp [secondPass, hlook, hu]

/-- C3 (amended): extract with a schema name absent from the file does
not surface the not-found error: the name receives a fabricated detected
entry in extractMultiple, and whenever the checker answers every query
(it answers queries about an unresolved identifier with the error type
printed as any), extraction returns a successful result carrying the
requested name; the not-found branch fires only on an empty result
list.  The statement holds for every detected-schema list, present or
absent names alike, and in particular for absent ones. -/
theorem c3_extract_returns_fabricated_result (oracle : Oracle) (fp : Str)
    (proj : ProjectState) (allSchemas : List DetectedSchema) (env : AnalysisEnv)
    (n : Str) (htotal : ∀ g m, (oracle g m).isSome)
    (hnoimp : env.importedSchemas = []) :
    ∃ r, extract oracle fp proj allSchemas env n = .ok r ∧ r.schemaName = n := by
  set s := (allSchemas.find? (fun x => x.name == n)).getD ⟨n, true, 0, none⟩ with hs_def
  have hname : s.name = n := by
    rw [hs_def]
    cases hf : allSchemas.find? (fun x => x.name == n) with
    | none => rfl
    | some x =>
        have hp := List.find?_some hf
        simp only [Option.getD_some]
        exact eq_of_beq hp
  have hip : extractImports oracle env.importedSchemas proj [] = ([], proj) := by
    rw [hnoimp]
    rfl
  obtain ⟨raw, hok⟩ :=
    extractLocals_singleton_ok oracle env.getterFieldMap s (proj fp) [] htotal
  obtain ⟨e, hsp, hen⟩ :=
    secondPass_singleton (setA [] s.name raw) env.referenceMap env.unionReferenceMap
      env.brandMap s raw (lookupA_setA_self _ _ _)
  refine ⟨e, ?_, by rw [hen, hname]⟩
  have hmap : [n].map
      (fun m => (allSchemas.find? (fun x => x.name == m)).getD ⟨m, true, 0, none⟩) =
      [s] := by
    rw [hs_def]
    rfl
  have hip2 : extractImports oracle [] proj [] = ([], proj) := rfl
  simp only [extract, extractMultiple, hmap, extractMultipleFromSourceFile, hip,
    hnoimp, hip2, List.filterMap_nil, hok, hsp, List.nil_append]

/-- Witness for the amended C3 at a file that does not define the
requested schema. -/
theorem c3_extract_returns_fabricated_result_witness :
    ∃ r, extract (fun _ _ => some (cs "any")) (cs "/tmp/user.ts") (fun _ => [])
        [⟨cs "UserSchema", true, 1, none⟩] ⟨[], [], [], [], []⟩ (cs "Missing") =
        .ok r ∧ r.schemaName = cs "Missing" :=
  c3_extract_returns_fabricated_result _ _ _ _ _ _ (fun _ _ => by decide) rfl

/-- C3 counterexample: requesting the absent name Missing from a file
with no schemas returns a fabricated successful result whose texts are
the checker's error-type text any, not the not-found error the claim
promises. -/
theorem c3_counterexample_fabricated_result :
    extract (fun _ _ => some (cs "any")) (cs "/tmp/user.ts") (fun _ => [])
        [] ⟨[], [], [], [], []⟩ (cs "Missing") =
      Except.ok ⟨cs "Missing", cs "any", cs "any", true, none, none, []⟩ := by
  rfl

theorem lookupA_setA_ne {β : Type} (m : List (Str × β)) (k k' : Str) (v : β)
    (h : k' ≠ k) : lookupA (setA m k v) k' = lookupA m k' := by
  induction m with
  | nil =>
      simp only [setA, lookupA, List.find?]
      have : ((k, v).1 == k') = false := by
        simp only [beq_eq_false_iff_ne, ne_eq]
        exact fun hk => h hk.symm
      simp [this]
  | cons p t ih =>
      obtain ⟨k0, v0⟩ := p
      rw [setA]
      by_cases hk : k0 = k
      · rw [if_pos hk]
        rw [lookupA, lookupA, List.find?, List.find?]
        have h1 : ((k, v).1 == k') = false := by
          simp only [beq_eq_false_iff_ne, ne_eq]
          exact fun hk2 => h hk2.symm
        have h2 : ((k0, v0).1 == k') = false := by
          simp only [beq_eq_false_iff_ne, ne_eq]
          intro hk2
          exact h (hk ▸ hk2).symm
        simp only [h1, h2]
      · rw [if_neg hk]
        rw [lookupA, lookupA, List.find?, List.find?]
        cases hp : ((k0, v0).1 == k') with
        | true => simp only
        | false =>
            simp only
            exact ih

theorem lookupA_setA_isSome {β : Type} (m : List (Str × β)) (k k' : Str) (v : β)
    (h : (lookupA m k').isSome = true) : (lookupA (setA m k v) k').isSome = true := by
  by_cases hk : k' = k
  · rw [hk, lookupA_setA_self]
    rfl
  · rw [lookupA_setA_ne m k k' v hk]
    exact h

/-- Presence of raw entries after a successful first pass: every schema
of the processed list has an entry under its name. -/
theorem extractLocals_lookup (oracle : Oracle) (gmap : List (Str × GetterFieldMap)) :
    ∀ (schemas : List DetectedSchema) (f : FileState) (acc : List (Str × RawType))
      (raws : List (Str × RawType)),
      (extractLocals oracle gmap schemas f acc).1 = .ok raws →
      ∀ k, ((lookupA acc k).isSome = true ∨ ∃ s ∈ schemas, s.name = k) →
        (lookupA raws k).isSome = true := by
  intro schemas
  induction schemas with
  | nil =>
      intro f acc raws hok k hdis
      simp only [extractLocals] at hok
      cases hok
      rcases hdis with h | ⟨s, hs, _⟩
      · exact h
      · cases hs
  | cons s rest ih =>
      intro f acc raws hok k hdis
      have hstep : ∀ (f' : FileState) (v : RawType),
          (extractLocals oracle gmap rest f' (setA acc s.name v)).1 = .ok raws →
          (lookupA raws k).isSome = true := by
        intro f' v hok'
        refine ih f' (setA acc s.name v) raws hok' k ?_
        rcases hdis with h | ⟨s', hs', hn⟩
        · exact Or.inl (lookupA_setA_isSome acc s.name k v h)
        · rcases List.mem_cons.mp hs' with h1 | h2
          · subst h1
            refine Or.inl ?_
            rw [← hn, lookupA_setA_self]
            rfl
          · exact Or.inr ⟨s', h2, hn⟩
      cases het : s.explicitType with
      | some t =>
          cases hr : resolveType oracle (injectExplicitType f t) (cs "__TempExplicit") with
          | ok r =>
              simp only [extractLocals, het, hr] at hok
              exact hstep _ _ hok
          | error e =>
              simp only [extractLocals, het, hr] at hok
              exact Except.noConfusion hok
      | none =>
          cases hr1 : resolveType oracle (injectTemporaryTypes f s.name)
              (cs "__TempInput") with
          | error e =>
              simp only [extractLocals, het, hr1] at hok
              exact Except.noConfusion hok
          | ok i0 =>
              cases hr2 : resolveType oracle (injectTemporaryTypes f s.name)
                  (cs "__TempOutput") with
              | error e =>
                  simp only [extractLocals, het, hr1, hr2] at hok
                  exact Except.noConfusion hok
              | ok o0 =>
                  simp only [extractLocals, het, hr1, hr2] at hok
                  exact hstep _ _ hok

/-- Identifier-array member collection succeeds on a literal array whose
elements all name known schemas other than the current one, preserving
the declared order. -/
theorem extractSchemaArrayMembers_all (ms schemaNames : List Str) (current : Str)
    (h : ∀ m ∈ ms, schemaNames.contains m = true ∧ m ≠ current) :
    extractSchemaArrayMembers (.arrayLit (ms.map .ident)) schemaNames current = ms := by
  induction ms with
  | nil => rfl
  | cons m t ih =>
      have hm := h m (List.mem_cons_self _ _)
      have hcond : (schemaNames.contains m && m != current) = true := by
        rw [hm.1]
        simp [bne_iff_ne]
        exact hm.2
      simp only [extractSchemaArrayMembers, List.map_cons, List.filterMap_cons, hcond,
        if_pos]
      have ht := ih (fun x hx => h x (List.mem_cons_of_mem _ hx))
      simp only [extractSchemaArrayMembers] at ht
      rw [ht]

/-- Names of second-pass entries are names of the processed schemas. -/
theorem secondPass_names (rawTypes : List (Str × RawType))
    (refMap : List (Str × List SchemaReferenceInfo))
    (unionMap : List (Str × UnionReferenceInfo))
    (brandMap : List (Str × List BrandInfo)) :
    ∀ (schemas : List DetectedSchema) (e : ExtractResult),
      e ∈ secondPass rawTypes refMap unionMap brandMap schemas →
        ∃ s ∈ schemas, e.schemaName = s.name := by
  intro schemas
  induction schemas with
  | nil => intro e he; cases he
  | cons s rest ih =>
      intro e he
      have hsub : ∀ e', e' ∈ secondPass rawTypes refMap unionMap brandMap rest →
          ∃ y ∈ s :: rest, e'.schemaName = y.name := by
        intro e' he'
        obtain ⟨y, hy, hn⟩ := ih e' he'
        exact ⟨y, List.mem_cons_of_mem _ hy, hn⟩
      rw [secondPass] at he
      cases hret : lookupA rawTypes s.name with
      | none =>
          rw [hret] at he
          exact hsub e he
      | some raw =>
          rw [hret] at he
          cases hu : lookupA unionMap s.name with
          | some u =>
              rw [hu] at he
              by_cases hm : u.memberSchemas.isEmpty = true
              · simp only [hm, Bool.not_true, if_false, Bool.false_eq_true,
                  List.mem_cons] at he
                rcases he with he | he
                · exact ⟨s, List.mem_cons_self _ _, by rw [he]; rfl⟩
                · exact hsub e he
              · simp only [Bool.not_eq_true'] at hm
                simp only [hm, Bool.not_false, if_true, List.mem_cons] at he
                rcases he with he | he
                · exact ⟨s, List.mem_cons_self _ _, by rw [he]⟩
                · exact hsub e he
          | none =>
              rw [hu] at he
              rcases List.mem_cons.mp he with he | he
              · exact ⟨s, List.mem_cons_self _ _, by rw [he]; rfl⟩
              · exact hsub e he

/-- Search of the union-branch entry in the second pass when the claimed
schema is preceded by schemas with other names. -/
theorem secondPass_find_union (rawTypes : List (Str × RawType))
    (refMap : List (Str × List SchemaReferenceInfo))
    (unionMap : List (Str × UnionReferenceInfo))
    (brandMap : List (Str × List BrandInfo)) :
    ∀ (pre : List DetectedSchema) (s : DetectedSchema) (post : List DetectedSchema)
      (u : UnionReferenceInfo) (raw : RawType),
      (∀ y ∈ pre, y.name ≠ s.name) →
      lookupA unionMap s.name = some u →
      u.memberSchemas ≠ [] →
      lookupA rawTypes s.name = some raw →
      (secondPass rawTypes refMap unionMap brandMap (pre ++ s :: post)).find?
          (fun r => r.schemaName == s.name) =
        some ⟨s.name,
          List.intercalate (cs " | ") (u.memberSchemas.map (· ++ cs "Input")),
          List.intercalate (cs " | ") (u.memberSchemas.map (· ++ cs "Output")),
          raw.isExported, none, none, (lookupA brandMap s.name).getD []⟩ := by
  intro pre
  induction pre with
  | nil =>
      intro s post u raw _ hu hm hraw
      have hme : u.memberSchemas.isEmpty = false := by
        cases hms : u.memberSchemas with
        | nil => exact absurd hms hm
        | cons a b => rfl
      rw [List.nil_append, secondPass, hraw, hu]
      simp only [hme, Bool.not_false, if_true]
      rw [List.find?_cons_of_pos]
      simp
  | cons y pre' ih =>
      intro s post u raw hpre hu hm hraw
      have hy : y.name ≠ s.name := hpre y (List.mem_cons_self _ _)
      have hpre' : ∀ z ∈ pre', z.name ≠ s.name :=
        fun z hz => hpre z (List.mem_cons_of_mem _ hz)
      have ihx := ih s post u raw hpre' hu hm hraw
      rw [List.cons_append, secondPass]
      cases hrety : lookupA rawTypes y.name with
      | none => exact ihx
      | some rawy =>
          have hskip : ∀ (e : ExtractResult), e.schemaName = y.name →
              List.find? (fun r => r.schemaName == s.name)
                (e :: secondPass rawTypes refMap unionMap brandMap (pre' ++ s :: post)) =
              some ⟨s.name,
                List.intercalate (cs " | ") (u.memberSchemas.map (· ++ cs "Input")),
                List.intercalate (cs " | ") (u.memberSchemas.map (· ++ cs "Output")),
                raw.isExported, none, none, (lookupA brandMap s.name).getD []⟩ := by
            intro e hen
            rw [List.find?_cons_of_neg, ihx]
            rw [hen]
            simp only [beq_iff_eq]
            exact hy
          cases huy : lookupA unionMap y.name with
          | some uy =>
              by_cases hmy : uy.memberSchemas.isEmpty = true
              · simp only [hmy, Bool.not_true, if_false, Bool.false_eq_true]
                exact hskip _ rfl
              · simp only [Bool.not_eq_true'] at hmy
                simp only [hmy, Bool.not_false, if_true]
                exact hskip _ rfl
          | none => exact hskip _ rfl

/-- C4: a schema recorded as a union or discriminated union of a literal
array of named member schemas resolves, in the final result list, to
exactly the pipe-join of the members' generated input names on the input
side and output names on the output side, in declared order, replacing
whatever the checker computed; the first conjunct settles what the
analyzer records for the two union builders over a literal
identifier-array argument. -/
theorem c4_union_wholesale :
    (∀ (ms schemaNames : List Str) (current key : Str),
      ms ≠ [] → (∀ m ∈ ms, schemaNames.contains m = true ∧ m ≠ current) →
      findUnionReference
          (.call (.propAccess (.ident (cs "z")) (cs "discriminatedUnion"))
            [.strLit key, .arrayLit (ms.map .ident)]) schemaNames current =
        some ⟨ms, true, some key⟩ ∧
      findUnionReference
          (.call (.propAccess (.ident (cs "z")) (cs "union"))
            [.arrayLit (ms.map .ident)]) schemaNames current =
        some ⟨ms, false, none⟩) ∧
    (∀ (oracle : Oracle) (fp : Str) (proj : ProjectState) (env : AnalysisEnv)
      (pre post : List DetectedSchema) (s : DetectedSchema) (u : UnionReferenceInfo)
      (rs : List ExtractResult),
      env.importedSchemas = [] →
      (∀ y ∈ pre, y.name ≠ s.name) →
      lookupA env.unionReferenceMap s.name = some u →
      u.memberSchemas ≠ [] →
      (extractMultipleFromSourceFile oracle fp proj (pre ++ s :: post) env).1 = .ok rs →
      ∃ e, rs.find? (fun r => r.schemaName == s.name) = some e ∧
        e.input = List.intercalate (cs " | ") (u.memberSchemas.map (· ++ cs "Input")) ∧
        e.output =
          List.intercalate (cs " | ") (u.memberSchemas.map (· ++ cs "Output"))) := by
  constructor
  · intro ms schemaNames current key hne hall
    have hesam := extractSchemaArrayMembers_all ms schemaNames current hall
    have hemp : ms.isEmpty = false := by
      cases ms with
      | nil => exact absurd rfl hne
      | cons a b => rfl
    constructor
    · simp only [findUnionReference, if_pos rfl, parseDiscriminatedUnion, hesam, hemp,
        Bool.false_eq_true, if_false]
      rfl
    · have hne2 : ¬((cs "union" : Str) = cs "discriminatedUnion") := by decide
      simp only [findUnionReference, if_pos rfl, hne2, if_false, parseUnion, hesam, hemp,
        Bool.false_eq_true]
      rfl
  · intro oracle fp proj env pre post s u rs hnoimp hpre hu hm hrun
    have hip2 : extractImports oracle [] proj [] = ([], proj) := rfl
    simp only [extractMultipleFromSourceFile, hnoimp, hip2, List.filterMap_nil] at hrun
    cases hel : (extractLocals oracle env.getterFieldMap (pre ++ s :: post) (proj fp) []).1 with
    | error e => rw [hel] at hrun; cases hrun
    | ok raws =>
        rw [hel] at hrun
        simp only [List.nil_append] at hrun
        have hsome : (lookupA raws s.name).isSome = true := by
          refine extractLocals_lookup oracle env.getterFieldMap (pre ++ s :: post)
            (proj fp) [] raws hel s.name (Or.inr ⟨s, ?_, rfl⟩)
          exact List.mem_append_right _ (List.mem_cons_self _ _)
        obtain ⟨raw, hraw⟩ := Option.isSome_iff_exists.mp hsome
        have hfind := secondPass_find_union raws env.referenceMap env.unionReferenceMap
          env.brandMap pre s post u raw hpre hu hm hraw
        cases hrun
        exact ⟨_, hfind, rfl, rfl⟩

/-- Witness for C4 on the three-member discriminated union of the
union-ref fixture. -/
theorem c4_union_wholesale_witness :
    (findUnionReference
        (.call (.propAccess (.ident (cs "z")) (cs "discriminatedUnion"))
          [.strLit (cs "kind"),
            .arrayLit [.ident (cs "DogSchema"), .ident (cs "CatSchema"),
              .ident (cs "BirdSchema")]])
        [cs "DogSchema", cs "CatSchema", cs "BirdSchema", cs "PetSchema"]
        (cs "PetSchema") =
      some ⟨[cs "DogSchema", cs "CatSchema", cs "BirdSchema"], true, some (cs "kind")⟩) ∧
    (∃ e, ([⟨cs "DogSchema", cs "X", cs "X", true, none, none, []⟩,
        ⟨cs "PetSchema", cs "DogSchemaInput | CatSchemaInput | BirdSchemaInput",
          cs "DogSchemaOutput | CatSchemaOutput | BirdSchemaOutput",
          true, none, none, []⟩] : List ExtractResult).find?
          (fun r => r.schemaName == cs "PetSchema") = some e ∧
      e.input = List.intercalate (cs " | ")
        (([cs "DogSchema", cs "CatSchema", cs "BirdSchema"]).map (· ++ cs "Input")) ∧
      e.output = List.intercalate (cs " | ")
        (([cs "DogSchema", cs "CatSchema", cs "BirdSchema"]).map (· ++ cs "Output"))) := by
  constructor
  · exact (c4_union_wholesale.1 [cs "DogSchema", cs "CatSchema", cs "BirdSchema"]
      [cs "DogSchema", cs "CatSchema", cs "BirdSchema", cs "PetSchema"]
      (cs "PetSchema") (cs "kind") (by decide) (by decide)).1
  · exact c4_union_wholesale.2 (fun _ _ => some (cs "X")) (cs "/u.ts") (fun _ => [])
      ⟨[], [], [],
        [(cs "PetSchema",
          ⟨[cs "DogSchema", cs "CatSchema", cs "BirdSchema"], true, some (cs "kind")⟩)],
        []⟩
      [⟨cs "DogSchema", true, 1, none⟩] [] ⟨cs "PetSchema", true, 4, none⟩
      ⟨[cs "DogSchema", cs "CatSchema", cs "BirdSchema"], true, some (cs "kind")⟩
      [⟨cs "DogSchema", cs "X", cs "X", true, none, none, []⟩,
        ⟨cs "PetSchema", cs "DogSchemaInput | CatSchemaInput | BirdSchemaInput",
          cs "DogSchemaOutput | CatSchemaOutput | BirdSchemaOutput",
          true, none, none, []⟩]
      rfl (by decide) (by decide) (by decide) (by rfl)

/-! Specification device for the value-span scanner of
replaceSchemaReference: the state after scanning a block without
triggering the break conditions. -/

/-- Depth and string state after consuming a block, or none when the
scanner would break inside it. -/
def rsrState : Str → Nat → Bool → Option (Nat × Bool)
  | [], d, q => some (d, q)
  | c :: t, d, q =>
      if c = '"' || c = '\'' then rsrState t d (!q)
      else if !q then
        if c = '\x7b' || c = '[' || c = '(' then rsrState t (d + 1) q
        else if c = '\x7d' || c = ']' || c = ')' then
          if d = 0 then none else rsrState t (d - 1) q
        else if c = ';' && d = 0 then none
        else rsrState t d q
      else rsrState t d q

theorem rsrState_scan (w : Str) :
    ∀ (v : Str) (d : Nat) (q : Bool) (e : Nat) (d' : Nat) (q' : Bool),
      rsrState v d q = some (d', q') →
      rsrScan (v ++ w) d q e = rsrScan w d' q' (e + v.length) := by
  intro v
  induction v with
  | nil =>
      intro d q e d' q' h
      simp only [rsrState, Option.some_inj, Prod.mk.injEq] at h
      rw [h.1, h.2]
      simp
  | cons c t ih =>
      intro d q e d' q' h
      rw [List.cons_append]
      simp only [rsrState] at h
      simp only [rsrScan]
      have harith : e + (c :: t).length = (e + 1) + t.length := by
        simp only [List.length_cons]
        omega
      rw [harith]
      split at h
      · rename_i hq0
        rw [if_pos hq0]
        exact ih d (!q) (e + 1) d' q' h
      · rename_i hq1
        rw [if_neg hq1]
        split at h
        · rename_i hq2
          rw [if_pos hq2]
          split at h
          · rename_i hc1
            rw [if_pos hc1]
            exact ih (d + 1) q (e + 1) d' q' h
          · rename_i hc1
            rw [if_neg hc1]
            split at h
            · rename_i hc2
              rw [if_pos hc2]
              split at h
              · cases h
              · rename_i hd
                rw [if_neg hd]
                exact ih (d - 1) q (e + 1) d' q' h
            · rename_i hc2
              rw [if_neg hc2]
              split at h
              · cases h
              · rename_i hc3
                rw [if_neg hc3]
                exact ih d q (e + 1) d' q' h
        · rename_i hq2
          rw [if_neg hq2]
          exact ih d q (e + 1) d' q' h

theorem rsrScan_semicolon (rest : Str) (e : Nat) :
    rsrScan (';' :: rest) 0 false e = e := by
  simp [rsrScan]

theorem length_append_append (a b c : Str) :
    ((a ++ b) ++ c).length = a.length + b.length + c.length := by
  simp [List.length_append]
  omega

/-- Exported-reference substitution at an expanded-object field value:
the scanner isolates exactly the braced span and substitutes the
generated type name, array-suffixed when the reference is
array-wrapped. -/
theorem replaceSchemaReference_exported_obj (pre v rest fp' refTypeStr refTypeName : Str)
    (refB : Str) (ia opt : Bool)
    (hidx : idxOfFrom (pre ++ (fp' ++ cs ": ") ++ v ++ ';' :: rest) (fp' ++ cs ": ") 0 =
      some pre.length)
    (hscan : rsrState v 0 false = some (0, false))
    (hv : (cs "\x7b").isPrefixOf v = true)
    (htrim : trimChars v = v)
    (hsuf : (cs "[]").isSuffixOf v = false) :
    replaceSchemaReference (pre ++ (fp' ++ cs ": ") ++ v ++ ';' :: rest)
        ⟨fp', refB, ia, false, opt⟩ refTypeStr refTypeName =
      pre ++ (fp' ++ cs ": ") ++ (if ia then refTypeName ++ cs "[]" else refTypeName) ++
        ';' :: rest := by
  obtain ⟨v0, hbv⟩ : ∃ v0, v = '\x7b' :: v0 := by
    cases v with
    | nil => cases hv
    | cons b v0 =>
        refine ⟨v0, ?_⟩
        have : ('\x7b' == b) = true := by
          by_contra hb
          rw [Bool.not_eq_true] at hb
          rw [cs] at hv
          have : (['\x7b'] : Str).isPrefixOf (b :: v0) = false := by
            simp only [List.isPrefixOf, hb, Bool.false_and]
          rw [show ("\x7b".toList : Str) = ['\x7b'] from rfl] at hv
          rw [this] at hv
          cases hv
        rw [eq_of_beq this]
  set T := pre ++ (fp' ++ cs ": ") ++ v ++ ';' :: rest with hT
  set P := fp' ++ cs ": " with hP
  have hTgroup : T = (pre ++ P) ++ (v ++ ';' :: rest) := by
    rw [hT, hP]
    simp [List.append_assoc]
  have hvs : pre.length + P.length = (pre ++ P).length := by
    simp [List.length_append]
  have hdropVS : T.drop (pre.length + P.length) = v ++ ';' :: rest := by
    rw [hTgroup, hvs, List.drop_left]
  have hscanT : rsrScan (T.drop (pre.length + P.length)) 0 false
      (pre.length + P.length) = pre.length + P.length + v.length := by
    rw [hdropVS, rsrState_scan (';' :: rest) v 0 false _ 0 false hscan,
      rsrScan_semicolon]
  have hsub : subRange T (pre.length + P.length) (pre.length + P.length + v.length) = v := by
    rw [subRange, hdropVS]
    have : pre.length + P.length + v.length - (pre.length + P.length) = v.length := by
      omega
    rw [this, List.take_left]
  have hro : (cs "readonly").isPrefixOf v = false := by
    rw [hbv]
    rfl
  have hros : (cs "readonly ").isPrefixOf v = false := by
    rw [hbv]
    rfl
  have htake : T.take (pre.length + P.length) = pre ++ P := by
    rw [hTgroup, hvs, List.take_left]
  have hdropEnd : T.drop (pre.length + P.length + v.length) = ';' :: rest := by
    have hg2 : T = ((pre ++ P) ++ v) ++ ';' :: rest := by
      rw [hTgroup]
      simp [List.append_assoc]
    have hl2 : ((pre ++ P) ++ v).length = pre.length + P.length + v.length := by
      simp [List.length_append]
      omega
    rw [hg2, ← hl2, List.drop_left]
  have hTry : rsrTryPattern T P ⟨fp', refB, ia, false, opt⟩ refTypeStr refTypeName
      (if ia then refTypeName ++ cs "[]" else refTypeName) =
      some (pre ++ P ++ (if ia then refTypeName ++ cs "[]" else refTypeName) ++
        ';' :: rest) := by
    have hidx' : idxOfFrom T P 0 = some pre.length := hidx
    simp only [rsrTryPattern, hidx']
    rw [hscanT, hsub, htrim, hro, Bool.false_and]
    simp only [Bool.false_eq_true, if_false, hsuf, htrim, hv, Bool.true_or, if_true]
    simp only [hros, Bool.and_false, Bool.false_eq_true, if_false]
    rw [htake, hdropEnd]
  simp only [replaceSchemaReference, hTry]

/-- Non-exported references are skipped wholesale by the second pass:
the entry keeps the raw checker texts verbatim. -/
theorem secondPassEntry_nonexported (rawTypes : List (Str × RawType))
    (refMap : List (Str × List SchemaReferenceInfo)) (s : DetectedSchema)
    (raw : RawType) (brands : List BrandInfo)
    (hex : s.explicitType = none)
    (hrefs : ∀ ref ∈ (lookupA refMap s.name).getD [], ∀ rr,
      lookupA rawTypes ref.refSchema = some rr → rr.isExported = false) :
    secondPassEntry rawTypes refMap s raw brands =
      ⟨s.name, raw.input, raw.output, raw.isExported, none, none, brands⟩ := by
  have hfold : ∀ (refs : List SchemaReferenceInfo) (p : Str × Str),
      (∀ ref ∈ refs, ∀ rr, lookupA rawTypes ref.refSchema = some rr →
        rr.isExported = false) →
      refs.foldl
        (fun (p : Str × Str) ref =>
          match lookupA rawTypes ref.refSchema with
          | none => p
          | some refRaw =>
              if !refRaw.isExported then p
              else
                (replaceSchemaReference p.1 ref refRaw.input (ref.refSchema ++ cs "Input"),
                 replaceSchemaReference p.2 ref refRaw.output
                   (ref.refSchema ++ cs "Output"))) p = p := by
    intro refs
    induction refs with
    | nil => intro p _; rfl
    | cons r t ih =>
        intro p h
        rw [List.foldl_cons]
        cases hr : lookupA rawTypes r.refSchema with
        | none => exact ih p (fun x hx => h x (List.mem_cons_of_mem _ hx))
        | some rr =>
            have : rr.isExported = false := h r (List.mem_cons_self _ _) rr hr
            simp only [this, Bool.not_false, if_true]
            exact ih p (fun x hx => h x (List.mem_cons_of_mem _ hx))
  simp only [secondPassEntry, hex, hfold _ _ hrefs]

/-- C5: inline references to exported schemas are substituted by the
generated type name, array-suffixed when array-wrapped, so the resolved
text contains the referenced schema's generated name in place of its
expanded shape; references to non-exported schemas are skipped wholesale
and the expanded shape stays inlined verbatim. -/
theorem c5_inline_reference_substitution :
    (∀ (pre v rest fp' refTypeStr refTypeName refB : Str) (ia opt : Bool),
      idxOfFrom (pre ++ (fp' ++ cs ": ") ++ v ++ ';' :: rest) (fp' ++ cs ": ") 0 =
        some pre.length →
      rsrState v 0 false = some (0, false) →
      (cs "\x7b").isPrefixOf v = true →
      trimChars v = v →
      (cs "[]").isSuffixOf v = false →
      replaceSchemaReference (pre ++ (fp' ++ cs ": ") ++ v ++ ';' :: rest)
          ⟨fp', refB, ia, false, opt⟩ refTypeStr refTypeName =
        pre ++ (fp' ++ cs ": ") ++
          (if ia then refTypeName ++ cs "[]" else refTypeName) ++ ';' :: rest ∧
      hasSub refTypeName
        (replaceSchemaReference (pre ++ (fp' ++ cs ": ") ++ v ++ ';' :: rest)
          ⟨fp', refB, ia, false, opt⟩ refTypeStr refTypeName) = true) ∧
    (∀ (rawTypes : List (Str × RawType)) (refMap : List (Str × List SchemaReferenceInfo))
      (s : DetectedSchema) (raw : RawType) (brands : List BrandInfo),
      s.explicitType = none →
      (∀ ref ∈ (lookupA refMap s.name).getD [], ∀ rr,
        lookupA rawTypes ref.refSchema = some rr → rr.isExported = false) →
      secondPassEntry rawTypes refMap s raw brands =
        ⟨s.name, raw.input, raw.output, raw.isExported, none, none, brands⟩) := by
  constructor
  · intro pre v rest fp' refTypeStr refTypeName refB ia opt h1 h2 h3 h4 h5
    have heq := replaceSchemaReference_exported_obj pre v rest fp' refTypeStr refTypeName
      refB ia opt h1 h2 h3 h4 h5
    refine ⟨heq, ?_⟩
    rw [heq]
    cases ia with
    | true =>
        simp only [if_true]
        have : pre ++ (fp' ++ cs ": ") ++ (refTypeName ++ cs "[]") ++ ';' :: rest =
            (pre ++ (fp' ++ cs ": ")) ++ refTypeName ++ (cs "[]" ++ ';' :: rest) := by
          simp [List.append_assoc]
        rw [this]
        exact hasSub_of_decomp refTypeName _ _
    | false =>
        simp only [Bool.false_eq_true, if_false]
        have : pre ++ (fp' ++ cs ": ") ++ refTypeName ++ ';' :: rest =
            (pre ++ (fp' ++ cs ": ")) ++ refTypeName ++ (';' :: rest) := by
          simp [List.append_assoc]
        rw [this]
        exact hasSub_of_decomp refTypeName _ _
  · exact secondPassEntry_nonexported

/-- Witness for C5: an expanded inline object span replaced by the
generated output name, and a reference to a non-exported schema left
verbatim. -/
theorem c5_inline_reference_substitution_witness :
    (replaceSchemaReference (cs "\x7b b: \x7b id: string \x7d; n: number \x7d")
        ⟨cs "b", cs "BSchema", false, false, false⟩ (cs "\x7b id: string \x7d")
        (cs "BSchemaOutput") =
      cs "\x7b b: BSchemaOutput; n: number \x7d" ∧
      hasSub (cs "BSchemaOutput")
        (replaceSchemaReference (cs "\x7b b: \x7b id: string \x7d; n: number \x7d")
          ⟨cs "b", cs "BSchema", false, false, false⟩ (cs "\x7b id: string \x7d")
          (cs "BSchemaOutput")) = true) ∧
    secondPassEntry [(cs "BSchema", ⟨cs "\x7b id: string \x7d", cs "\x7b id: string \x7d", false⟩)]
        [(cs "ASchema", [⟨cs "b", cs "BSchema", false, false, false⟩])]
        ⟨cs "ASchema", true, 1, none⟩
        ⟨cs "\x7b b: \x7b id: string \x7d; n: number \x7d",
          cs "\x7b b: \x7b id: string \x7d; n: number \x7d", true⟩ [] =
      ⟨cs "ASchema", cs "\x7b b: \x7b id: string \x7d; n: number \x7d",
        cs "\x7b b: \x7b id: string \x7d; n: number \x7d", true, none, none, []⟩ := by
  constructor
  · have h := c5_inline_reference_substitution.1 (cs "\x7b ") (cs "\x7b id: string \x7d")
      (cs " n: number \x7d") (cs "b") (cs "\x7b id: string \x7d") (cs "BSchemaOutput")
      (cs "BSchema") false false (by decide) (by decide) (by decide) (by decide) (by decide)
    exact h
  · exact c5_inline_reference_substitution.2
      [(cs "BSchema", ⟨cs "\x7b id: string \x7d", cs "\x7b id: string \x7d", false⟩)]
      [(cs "ASchema", [⟨cs "b", cs "BSchema", false, false, false⟩])]
      ⟨cs "ASchema", true, 1, none⟩
      ⟨cs "\x7b b: \x7b id: string \x7d; n: number \x7d",
        cs "\x7b b: \x7b id: string \x7d; n: number \x7d", true⟩ [] rfl (by decide)

/-- C6 (amended): for a schema carrying an explicit type annotation the
first pass injects only the bare annotation alias, leaving the
deep-normalize utility uninjected, issues a single checker query, and
records the answer as both input and output; in the second pass the only
further change is the self-reference renaming of the annotation
identifier (to SchemaNameInput in the input text, SchemaNameOutput in the
output text), so the final texts are identical exactly when that renaming
finds no whole-word occurrence of the annotation name. -/
theorem c6_explicit_type_skips_normalize :
    (∀ (oracle : Oracle) (gmap : List (Str × GetterFieldMap)) (s : DetectedSchema)
      (t : Str) (f : FileState) (acc : List (Str × RawType)) (r : Str),
      s.explicitType = some t →
      oracle (injectExplicitType f t) (cs "__TempExplicit") = some r →
      extractLocals oracle gmap [s] f acc =
        (.ok (setA acc s.name ⟨r, r, s.isExported⟩),
          cleanupExplicitType (injectExplicitType f t)) ∧
      hasAliasNamed (injectExplicitType f t) (cs "__Normalize") =
        hasAliasNamed f (cs "__Normalize")) ∧
    (∀ (rawTypes : List (Str × RawType)) (refMap : List (Str × List SchemaReferenceInfo))
      (s : DetectedSchema) (raw : RawType) (brands : List BrandInfo) (tn : Str),
      s.explicitType = some tn →
      isValidIdentifier tn = true →
      (lookupA refMap s.name).getD [] = [] →
      secondPassEntry rawTypes refMap s raw brands =
        ⟨s.name, wbReplaceAll raw.input tn (s.name ++ cs "Input"),
          wbReplaceAll raw.output tn (s.name ++ cs "Output"),
          raw.isExported, none, none, brands⟩) ∧
    (∀ (rawTypes : List (Str × RawType)) (refMap : List (Str × List SchemaReferenceInfo))
      (s : DetectedSchema) (raw : RawType) (brands : List BrandInfo)
      (t0 : Char) (tr : Str),
      s.explicitType = some (t0 :: tr) →
      isValidIdentifier (t0 :: tr) = true →
      (lookupA refMap s.name).getD [] = [] →
      raw.input = raw.output →
      wbClean t0 tr none raw.input = true →
      (secondPassEntry rawTypes refMap s raw brands).input =
        (secondPassEntry rawTypes refMap s raw brands).output) := by
  refine ⟨?_, ?_, ?_⟩
  · intro oracle gmap s t f acc r het ho
    constructor
    · have hr : resolveType oracle (injectExplicitType f t) (cs "__TempExplicit") =
          .ok r := by
        rw [resolveType, hasAliasNamed_inject_explicit, if_pos rfl, ho]
      simp only [extractLocals, het, hr]
    · rw [hasAliasNamed, injectExplicitType, List.any_append]
      have : [(⟨true, cs "__TempExplicit", t⟩ : Stmt)].any
          (fun st => st.isTypeAlias && st.name == cs "__Normalize") = false := rfl
      rw [this, Bool.or_false]
      rfl
  · intro rawTypes refMap s raw brands tn het hval hrefs
    simp only [secondPassEntry, hrefs, List.foldl_nil, het, hval, if_true]
  · intro rawTypes refMap s raw brands t0 tr het hval hrefs hio hclean
    simp only [secondPassEntry, hrefs, List.foldl_nil, het, hval, if_true]
    have hclean2 : wbClean t0 tr none raw.output = true := by rw [← hio]; exact hclean
    rw [wbReplaceAll_of_clean t0 tr _ _ hclean2,
      wbReplaceAll_of_clean t0 tr _ _ hclean, hio]

/-- Witness for the amended C6 on a concrete explicit-type schema whose
annotation name does not occur in the checker text. -/
theorem c6_explicit_type_skips_normalize_witness :
    (extractLocals (fun _ _ => some (cs "CategoryInterface")) []
        [⟨cs "CategorySchema", true, 1, some (cs "Category")⟩]
        [⟨false, cs "CategorySchema", cs "base"⟩] [] =
      (.ok (setA [] (cs "CategorySchema")
          ⟨cs "CategoryInterface", cs "CategoryInterface", true⟩),
        cleanupExplicitType (injectExplicitType [⟨false, cs "CategorySchema", cs "base"⟩]
          (cs "Category"))) ∧
      hasAliasNamed (injectExplicitType [⟨false, cs "CategorySchema", cs "base"⟩]
          (cs "Category")) (cs "__Normalize") =
        hasAliasNamed [⟨false, cs "CategorySchema", cs "base"⟩] (cs "__Normalize")) ∧
    (secondPassEntry [] [] ⟨cs "TreeSchema", true, 1, some (cs "Tree")⟩
        ⟨cs "string", cs "string", true⟩ []).input =
      (secondPassEntry [] [] ⟨cs "TreeSchema", true, 1, some (cs "Tree")⟩
        ⟨cs "string", cs "string", true⟩ []).output := by
  constructor
  · exact c6_explicit_type_skips_normalize.1 (fun _ _ => some (cs "CategoryInterface")) []
      ⟨cs "CategorySchema", true, 1, some (cs "Category")⟩ (cs "Category")
      [⟨false, cs "CategorySchema", cs "base"⟩] [] (cs "CategoryInterface") rfl rfl
  · exact c6_explicit_type_skips_normalize.2.2 [] []
      ⟨cs "TreeSchema", true, 1, some (cs "Tree")⟩ ⟨cs "string", cs "string", true⟩ []
      'T' (cs "ree") rfl (by decide) rfl rfl (by decide)

/-- C6 counterexample: an explicit-type schema whose annotation name
occurs in the resolved text ends with different final input and output
texts, because the second pass renames the annotation identifier to the
Input name on one side and the Output name on the other. -/
theorem c6_counterexample_final_texts_differ :
    (extractMultipleFromSourceFile (fun _ _ => some (cs "string | JsonValue[]"))
        (cs "/l.ts") (fun _ => [])
        [⟨cs "JsonValueSchema", true, 1, some (cs "JsonValue")⟩]
        ⟨[], [], [], [], []⟩).1 =
      Except.ok [⟨cs "JsonValueSchema", cs "string | JsonValueSchemaInput[]",
        cs "string | JsonValueSchemaOutput[]", true, none, none, []⟩] ∧
    (cs "string | JsonValueSchemaInput[]" : Str) ≠ cs "string | JsonValueSchemaOutput[]" := by
  constructor
  · rfl
  · decide

theorem rfaLoop_no_idx (p tn : Str) (ar : Bool) (fuel : Nat) (t : Str) :
    rfaLoop p tn ar fuel none t = t := by
  cases fuel <;> rfl

theorem rfaLoop_step (p tn : Str) (ar : Bool) (fuel idx : Nat) (t : Str) :
    rfaLoop p tn ar (fuel + 1) (some idx) t =
      rfaLoop p tn ar fuel (idxOfFrom (rfaStep t p tn ar idx) p (idx + 1))
        (rfaStep t p tn ar idx) := rfl

/-- Evaluation of one replaceFieldAny step at the head of an any
placeholder value. -/
theorem rfaStep_at_any (a b fn tn : Str) (hb : (cs "[]").isPrefixOf b = false) :
    rfaStep ((a ++ (fn ++ cs ": ")) ++ (cs "any" ++ b)) (fn ++ cs ": ") tn false
        a.length =
      (a ++ (fn ++ cs ": ")) ++ (tn ++ b) := by
  have hvs : a.length + (fn ++ cs ": ").length = (a ++ (fn ++ cs ": ")).length := by
    simp [List.length_append]
  have hdrop : ((a ++ (fn ++ cs ": ")) ++ (cs "any" ++ b)).drop
      (a.length + (fn ++ cs ": ").length) = cs "any" ++ b := by
    rw [hvs, List.drop_left]
  have hro : (cs "readonly ").isPrefixOf (cs "any" ++ b) = false := rfl
  have hany : (cs "any").isPrefixOf (cs "any" ++ b) = true := by
    rw [List.isPrefixOf_iff_prefix]
    exact ⟨b, rfl⟩
  have hdrop3 : ((a ++ (fn ++ cs ": ")) ++ (cs "any" ++ b)).drop
      (a.length + (fn ++ cs ": ").length + 3) = b := by
    have hg : (a ++ (fn ++ cs ": ")) ++ (cs "any" ++ b) =
        ((a ++ (fn ++ cs ": ")) ++ cs "any") ++ b := by
      simp [List.append_assoc]
    have hl : ((a ++ (fn ++ cs ": ")) ++ cs "any").length =
        a.length + (fn ++ cs ": ").length + 3 := by
      simp [List.length_append, show (cs "any").length = 3 from rfl]
      omega
    rw [hg, ← hl, List.drop_left]
  have htake : ((a ++ (fn ++ cs ": ")) ++ (cs "any" ++ b)).take
      (a.length + (fn ++ cs ": ").length) = a ++ (fn ++ cs ": ") := by
    rw [hvs, List.take_left]
  simp only [rfaStep, hdrop, hro, Bool.false_eq_true, if_false, hany, if_true, hb,
    Bool.or_false, hdrop3, htake]
  simp [List.append_assoc]

/-- Single-occurrence behavior of replaceFieldAny: the any placeholder
after the field pattern is replaced by the generated type name. -/
theorem replaceFieldAny_single (a b fn tn : Str)
    (hb : (cs "[]").isPrefixOf b = false)
    (hidx1 : idxOfFrom ((a ++ (fn ++ cs ": ")) ++ (cs "any" ++ b)) (fn ++ cs ": ") 0 =
      some a.length)
    (hidx2 : idxOfFrom ((a ++ (fn ++ cs ": ")) ++ (tn ++ b)) (fn ++ cs ": ")
      (a.length + 1) = none)
    (hidx3 : idxOfFrom ((a ++ (fn ++ cs ": ")) ++ (tn ++ b)) (fn ++ cs "?: ") 0 = none) :
    replaceFieldAny ((a ++ (fn ++ cs ": ")) ++ (cs "any" ++ b)) fn tn false =
      (a ++ (fn ++ cs ": ")) ++ (tn ++ b) := by
  have hstep := rfaStep_at_any a b fn tn hb
  simp only [replaceFieldAny, hidx1]
  rw [show ((a ++ (fn ++ cs ": ")) ++ (cs "any" ++ b)).length + tn.length + 2 =
    (((a ++ (fn ++ cs ": ")) ++ (cs "any" ++ b)).length + tn.length + 1) + 1 from rfl]
  rw [rfaLoop_step, hstep, hidx2, rfaLoop_no_idx, hidx3, rfaLoop_no_idx]

/-- C2 (amended): the extractor invokes the any-placeholder resolver only
for schemas with a directly self-referencing getter field; when no getter
field is a direct self reference - in particular for mutually recursive
schemas, whose getter fields reference the sibling schema - the checker
texts pass through unchanged, so an any placeholder survives; for a
direct self reference the placeholder after the field pattern is
rewritten to the generated type name. -/
theorem c2_self_reference_any_resolution :
    (∀ (gmap : List (Str × GetterFieldMap)) (n i o : Str),
      lookupA gmap n = none → getterStep gmap n i o = (i, o)) ∧
    (∀ (gmap : List (Str × GetterFieldMap)) (n i o : Str) (gf : GetterFieldMap),
      lookupA gmap n = some gf → hasSelfReferences gf = false →
      getterStep gmap n i o = (i, o)) ∧
    (∀ (a b fn tn rs : Str) (opt : Bool),
      (cs "[]").isPrefixOf b = false →
      idxOfFrom ((a ++ (fn ++ cs ": ")) ++ (cs "any" ++ b)) (fn ++ cs ": ") 0 =
        some a.length →
      idxOfFrom ((a ++ (fn ++ cs ": ")) ++ (tn ++ b)) (fn ++ cs ": ")
        (a.length + 1) = none →
      idxOfFrom ((a ++ (fn ++ cs ": ")) ++ (tn ++ b)) (fn ++ cs "?: ") 0 = none →
      resolveAnyTypes ((a ++ (fn ++ cs ": ")) ++ (cs "any" ++ b))
          [(fn, ⟨rs, false, false, opt, true⟩)] tn =
        (a ++ (fn ++ cs ": ")) ++ (tn ++ b)) := by
  refine ⟨?_, ?_, ?_⟩
  · intro gmap n i o h
    simp only [getterStep, h]
  · intro gmap n i o gf h hs
    simp only [getterStep, h, hs, Bool.false_eq_true, if_false]
  · intro a b fn tn rs opt hb h1 h2 h3
    simp only [resolveAnyTypes, List.foldl_cons, List.foldl_nil, Bool.not_true,
      Bool.false_eq_true, if_false]
    exact replaceFieldAny_single a b fn tn hb h1 h2 h3

/-- Witness for the amended C2: pass-through for a mutual reference and
placeholder rewriting for a direct self reference. -/
theorem c2_self_reference_any_resolution_witness :
    getterStep [(cs "ASchema", [(cs "b", ⟨cs "BSchema", false, false, false, false⟩)])]
        (cs "ASchema") (cs "\x7b b: any; \x7d") (cs "\x7b b: any; \x7d") =
      (cs "\x7b b: any; \x7d", cs "\x7b b: any; \x7d") ∧
    resolveAnyTypes ((cs "\x7b " ++ (cs "child" ++ cs ": ")) ++ (cs "any" ++ cs "; \x7d"))
        [(cs "child", ⟨cs "Node", false, false, true, true⟩)] (cs "NodeInput") =
      (cs "\x7b " ++ (cs "child" ++ cs ": ")) ++ (cs "NodeInput" ++ cs "; \x7d") := by
  constructor
  · exact c2_self_reference_any_resolution.2.1
      [(cs "ASchema", [(cs "b", ⟨cs "BSchema", false, false, false, false⟩)])]
      (cs "ASchema") (cs "\x7b b: any; \x7d") (cs "\x7b b: any; \x7d")
      [(cs "b", ⟨cs "BSchema", false, false, false, false⟩)] rfl rfl
  · exact c2_self_reference_any_resolution.2.2 (cs "\x7b ") (cs "; \x7d") (cs "child")
      (cs "NodeInput") (cs "Node") true (by decide) (by decide) (by decide) (by decide)

/-- C2 counterexample: two mutually recursive getter schemas - each
getter field references the sibling, so none is a direct self reference -
keep the checker's circularity placeholder: the resolved input and output
texts of ASchema contain the literal substring any, contradicting the
claim that self-referencing schemas, mutual ones included, never do.  The
getter field map mirrors what GetterResolver.analyzeGetterFields records
for such a file, and the oracle answers with the any-bearing expansion
the checker produces for circular getters. -/
theorem c2_counterexample_mutual_recursion_keeps_any :
    (extractMultipleFromSourceFile
        (fun _ _ => some (cs "\x7b b: \x7b a: any; \x7d; \x7d")) (cs "/m.ts")
        (fun _ => [])
        [⟨cs "ASchema", true, 1, none⟩, ⟨cs "BSchema", true, 5, none⟩]
        ⟨[], [(cs "ASchema", [(cs "b", ⟨cs "BSchema", false, false, false, false⟩)]),
            (cs "BSchema", [(cs "a", ⟨cs "ASchema", false, false, false, false⟩)])],
          [], [], []⟩).1 =
      Except.ok
        [⟨cs "ASchema", cs "\x7b b: \x7b a: any; \x7d; \x7d",
          cs "\x7b b: \x7b a: any; \x7d; \x7d", true, none, none, []⟩,
         ⟨cs "BSchema", cs "\x7b b: \x7b a: any; \x7d; \x7d",
          cs "\x7b b: \x7b a: any; \x7d; \x7d", true, none, none, []⟩] ∧
    hasSub (cs "any") (cs "\x7b b: \x7b a: any; \x7d; \x7d") = true := by
  constructor
  · rfl
  · decide

/-! Character-subset invariant of the pretty printer: with no field
descriptions, every character the printer emits either comes from the
input text or belongs to the fixed set of formatting characters. -/

/-- Formatting characters the object printer inserts on its own. -/
def ppSpecial (c : Char) : Bool :=
  c == '\n' || c == ' ' || c == '\x7b' || c == '\x7d' || c == ':' || c == ';'

/-- Character provenance predicate for printer output. -/
def ppOk (t0 r : Str) : Prop := ∀ x ∈ r, x ∈ t0 ∨ ppSpecial x = true

theorem ppOk_append {t0 a b : Str} (ha : ppOk t0 a) (hb : ppOk t0 b) :
    ppOk t0 (a ++ b) := by
  intro x hx
  rcases List.mem_append.mp hx with h | h
  · exact ha x h
  · exact hb x h

theorem ppOk_special {t0 r : Str} (h : ∀ x ∈ r, ppSpecial x = true) : ppOk t0 r :=
  fun x hx => Or.inr (h x hx)

theorem ppOk_indent (t0 : Str) (d : Int) : ppOk t0 (indentRepI (cs "  ") d) := by
  apply ppOk_special
  intro x hx
  rw [indentRepI, indentRep] at hx
  rcases List.mem_flatten.mp hx with ⟨l, hl, hxl⟩
  rcases List.mem_replicate.mp hl with ⟨-, rfl⟩
  have hx2 : x ∈ ([' ', ' '] : Str) := hxl
  have hx3 : x = ' ' := by
    rcases List.mem_cons.mp hx2 with h | h
    · exact h
    · rcases List.mem_cons.mp h with h' | h'
      · exact h'
      · exact absurd h' (List.not_mem_nil x)
  rw [hx3]; rfl

theorem updateStringState_result (st : ParserState) (c : Char) (prev : Option Char) :
    (updateStringState st c prev).result = st.result := by
  rw [updateStringState]
  split
  · split
    · rfl
    · split <;> rfl
  · rfl

theorem handleOpenBrace_result (st : ParserState) (ind : Str) :
    (handleOpenBrace st ind).result =
      st.result ++ cs "\x7b\n" ++ indentRepI ind (st.depth + 1) := by
  simp only [handleOpenBrace]
  split <;> rfl

theorem handleCloseBrace_result (st : ParserState) (ind : Str) :
    (handleCloseBrace st ind).result =
      st.result ++ cs "\n" ++ indentRepI ind (st.depth - 1) ++ cs "\x7d" := by
  simp only [handleCloseBrace]
  split <;> rfl

theorem handleColon_result (st : ParserState) (ind pfx : Str) :
    (handleColon st ind none pfx).result = st.result ++ cs ":" := by
  rw [handleColon]
  split <;> rfl

theorem handleOpenBrace_ok {t0 : Str} {st : ParserState} (h : ppOk t0 st.result) :
    ppOk t0 (handleOpenBrace st (cs "  ")).result := by
  rw [handleOpenBrace_result]
  exact ppOk_append (ppOk_append h (ppOk_special (by decide))) (ppOk_indent t0 _)

theorem handleCloseBrace_ok {t0 : Str} {st : ParserState} (h : ppOk t0 st.result) :
    ppOk t0 (handleCloseBrace st (cs "  ")).result := by
  rw [handleCloseBrace_result]
  exact ppOk_append
    (ppOk_append (ppOk_append h (ppOk_special (by decide))) (ppOk_indent t0 _))
    (ppOk_special (by decide))

theorem handleColon_ok {t0 : Str} {st : ParserState} (pfx : Str) (h : ppOk t0 st.result) :
    ppOk t0 (handleColon st (cs "  ") none pfx).result := by
  rw [handleColon_result]
  exact ppOk_append h (ppOk_special (by decide))

theorem handleSemicolon_ok {t0 : Str} {st : ParserState} (rest : Str)
    (h : ppOk t0 st.result) :
    ppOk t0 (handleSemicolon st (cs "  ") rest).result := by
  rw [handleSemicolon]
  split
  · exact ppOk_append h (ppOk_special (by decide))
  · exact ppOk_append (ppOk_append h (ppOk_special (by decide))) (ppOk_indent t0 _)

theorem handleSpace_ok {t0 : Str} {st : ParserState} (h : ppOk t0 st.result) :
    ppOk t0 (handleSpace st (cs "  ")).result := by
  rw [handleSpace]
  split
  · exact h
  · exact ppOk_append h (ppOk_special (by decide))

theorem handleDefaultChar_ok {t0 : Str} {st : ParserState} {c : Char}
    (h : ppOk t0 st.result) (hc : c ∈ t0 ∨ ppSpecial c = true) :
    ppOk t0 (handleDefaultChar st c).result := by
  intro x hx
  simp only [handleDefaultChar] at hx
  rcases List.mem_append.mp hx with h1 | h1
  · exact h x h1
  · have hx3 : x = c := by
      rcases List.mem_cons.mp h1 with h' | h'
      · exact h'
      · exact absurd h' (List.not_mem_nil x)
    rw [hx3]; exact hc

theorem handleStringChar_ok {t0 : Str} {st : ParserState} {c : Char}
    (h : ppOk t0 st.result) (hc : c ∈ t0 ∨ ppSpecial c = true) :
    ppOk t0 (handleStringChar st c).result := by
  intro x hx
  simp only [handleStringChar] at hx
  rcases List.mem_append.mp hx with h1 | h1
  · exact h x h1
  · have hx3 : x = c := by
      rcases List.mem_cons.mp h1 with h' | h'
      · exact h'
      · exact absurd h' (List.not_mem_nil x)
    rw [hx3]; exact hc

theorem dispatch_ok {t0 : Str} (st1 : ParserState) (c : Char) (rest pfx : Str)
    (h : ppOk t0 st1.result) (hc : c ∈ t0 ∨ ppSpecial c = true) :
    ppOk t0 (if c = '\x7b' then handleOpenBrace st1 (cs "  ")
      else if c = '\x7d' then handleCloseBrace st1 (cs "  ")
      else if c = ':' then handleColon st1 (cs "  ") none pfx
      else if c = ';' then handleSemicolon st1 (cs "  ") rest
      else if c = ' ' then handleSpace st1 (cs "  ")
      else handleDefaultChar st1 c).result := by
  split
  · exact handleOpenBrace_ok h
  · split
    · exact handleCloseBrace_ok h
    · split
      · exact handleColon_ok pfx h
      · split
        · exact handleSemicolon_ok rest h
        · split
          · exact handleSpace_ok h
          · exact handleDefaultChar_ok h hc

theorem ppLoop_ok (t0 : Str) (pfx : Str) :
    ∀ (s : Str) (prev : Option Char) (st : ParserState),
      (∀ c ∈ s, c ∈ t0) → ppOk t0 st.result →
      ppOk t0 (ppLoop (cs "  ") none pfx s prev st).result := by
  intro s
  induction s with
  | nil => intro prev st _ h; exact h
  | cons c rest ih =>
      intro prev st hs h
      have hc : c ∈ t0 := hs c (List.mem_cons_self c rest)
      have hrest : ∀ x ∈ rest, x ∈ t0 := fun x hx => hs x (List.mem_cons_of_mem c hx)
      have h1 : ppOk t0 (updateStringState st c prev).result := by
        rw [updateStringState_result]; exact h
      simp only [ppLoop]
      by_cases hstr : (updateStringState st c prev).inString = true
      · rw [if_pos hstr]
        exact ih (some c) _ hrest (handleStringChar_ok h1 (Or.inl hc))
      · rw [if_neg hstr]
        exact ih (some c) _ hrest (dispatch_ok _ c rest pfx h1 (Or.inl hc))

theorem mem_splitOnCharAux (sep : Char) :
    ∀ (s cur piece : Str), piece ∈ splitOnCharAux sep s cur →
      ∀ x ∈ piece, x ∈ s ∨ x ∈ cur := by
  intro s
  induction s with
  | nil =>
      intro cur piece hp x hx
      rw [splitOnCharAux] at hp
      rcases List.mem_cons.mp hp with rfl | hp'
      · exact Or.inr (List.mem_reverse.mp hx)
      · exact absurd hp' (List.not_mem_nil piece)
  | cons c t ih =>
      intro cur piece hp x hx
      rw [splitOnCharAux] at hp
      by_cases hcs : c = sep
      · rw [if_pos hcs] at hp
        rcases List.mem_cons.mp hp with rfl | hp'
        · exact Or.inr (List.mem_reverse.mp hx)
        · rcases ih [] piece hp' x hx with h | h
          · exact Or.inl (List.mem_cons_of_mem c h)
          · exact absurd h (List.not_mem_nil x)
      · rw [if_neg hcs] at hp
        rcases ih (c :: cur) piece hp x hx with h | h
        · exact Or.inl (List.mem_cons_of_mem c h)
        · rcases List.mem_cons.mp h with rfl | h'
          · exact Or.inl (List.mem_cons_self x t)
          · exact Or.inr h'

theorem mem_of_mem_splitOnChar (sep : Char) (s piece : Str)
    (hp : piece ∈ splitOnChar sep s) (x : Char) (hx : x ∈ piece) : x ∈ s := by
  rcases mem_splitOnCharAux sep s [] piece hp x hx with h | h
  · exact h
  · exact absurd h (List.not_mem_nil x)

theorem mem_of_mem_trimEndChars (s : Str) (x : Char) (hx : x ∈ trimEndChars s) :
    x ∈ s := by
  rw [trimEndChars] at hx
  rw [List.mem_reverse] at hx
  exact List.mem_reverse.mp (List.Sublist.mem hx (List.dropWhile_sublist _))

theorem mem_intercalate_lines (x : Char) :
    ∀ (L : List Str), x ∈ List.intercalate (cs "\n") L →
      (∃ p ∈ L, x ∈ p) ∨ x = '\n' := by
  intro L
  induction L with
  | nil =>
      intro h
      have e : List.intercalate (cs "\n") ([] : List Str) = [] := rfl
      rw [e] at h
      exact absurd h (List.not_mem_nil x)
  | cons p t ih =>
      cases t with
      | nil =>
          intro h
          have e : List.intercalate (cs "\n") [p] = p ++ [] := rfl
          rw [e, List.append_nil] at h
          exact Or.inl ⟨p, List.mem_cons_self p [], h⟩
      | cons q t' =>
          intro h
          have e : List.intercalate (cs "\n") (p :: q :: t') =
              p ++ (cs "\n" ++ List.intercalate (cs "\n") (q :: t')) := rfl
          rw [e] at h
          rcases List.mem_append.mp h with h1 | h1
          · exact Or.inl ⟨p, List.mem_cons_self p (q :: t'), h1⟩
          · rcases List.mem_append.mp h1 with h2 | h2
            · right
              rcases List.mem_cons.mp h2 with h' | h'
              · exact h'
              · exact absurd h' (List.not_mem_nil x)
            · rcases ih h2 with ⟨pp, hpp, hxp⟩ | h3
              · exact Or.inl ⟨pp, List.mem_cons_of_mem p hpp, hxp⟩
              · exact Or.inr h3

theorem mem_trimEndLines (s : Str) (x : Char) (hx : x ∈ trimEndLines s) :
    x ∈ s ∨ x = '\n' := by
  rw [trimEndLines] at hx
  rcases mem_intercalate_lines x _ hx with ⟨p, hp, hxp⟩ | h
  · rcases List.mem_map.mp hp with ⟨p0, hp0, rfl⟩
    exact Or.inl (mem_of_mem_splitOnChar '\n' s p0 hp0 x (mem_of_mem_trimEndChars p0 x hxp))
  · exact Or.inr h

theorem prettifyType_ok (t : Str) : ppOk t (prettifyType t (cs "  ") none []) := by
  rw [prettifyType]
  split
  · intro x hx; exact Or.inl hx
  · intro x hx
    rcases mem_trimEndLines _ x hx with h | h
    · rw [prettifyObjectType] at h
      exact ppLoop_ok t [] t none createParserState (fun c hc => hc)
        (fun y hy => absurd hy (List.not_mem_nil y)) x h
    · exact Or.inr (by rw [h]; rfl)

/-- The brand-intersection marker applyBrands appends, the embedding of
the template literal in type-printer.ts. -/
def brandMarker (n : Str) : Str := cs " & BRAND<\"" ++ n ++ cs "\">"

theorem mem_B_brandMarker (n : Str) : 'B' ∈ brandMarker n := by
  rw [brandMarker]
  exact List.mem_append.mpr (Or.inl (List.mem_append.mpr (Or.inl (by decide))))

theorem not_mem_prettify (t : Str) (c : Char) (hc : c ∉ t) (hs : ppSpecial c = false) :
    c ∉ prettifyType t (cs "  ") none [] := by
  intro h
  rcases prettifyType_ok t c h with h1 | h1
  · exact hc h1
  · rw [hs] at h1
    exact Bool.false_ne_true h1

theorem marker_not_in_prettified (tIn n : Str) (hB : 'B' ∉ tIn) :
    hasSub (brandMarker n) (prettifyType tIn (cs "  ") none []) = false :=
  not_hasSub_of_not_mem _ _ 'B' (mem_B_brandMarker n)
    (not_mem_prettify tIn 'B' hB (by decide))

theorem not_suffix_singleton (c d : Char) (hcd : (c == d) = false) (y : Str) :
    ([c] : Str).isSuffixOf (y ++ [d]) = false := by
  simp only [List.isSuffixOf, List.reverse_append, List.reverse_cons, List.reverse_nil,
    List.nil_append, List.cons_append, List.isPrefixOf, hcd, Bool.false_and]

theorem close_brace_not_suffix (y n : Str) :
    (cs "\x7d").isSuffixOf (y ++ brandMarker n) = false := by
  have e : y ++ brandMarker n = (y ++ (cs " & BRAND<\"" ++ n ++ ['"'])) ++ ['>'] := by
    rw [brandMarker]
    have e2 : cs "\">" = ['"'] ++ ['>'] := rfl
    rw [e2]
    simp [List.append_assoc]
  rw [e]
  have e3 : cs "\x7d" = ['\x7d'] := rfl
  rw [e3]
  exact not_suffix_singleton '\x7d' '>' (by decide) _

theorem prettify_branded_id (t n : Str) (descs : Option (List FieldDescription)) :
    prettifyType (t ++ brandMarker n) (cs "  ") descs [] = t ++ brandMarker n := by
  rw [prettifyType]
  rw [close_brace_not_suffix t n]
  simp

theorem applyBrands_root (t n : Str) : applyBrands t [⟨n, []⟩] = t ++ brandMarker n := by
  rw [applyBrands]
  simp [brandMarker, List.append_assoc]

theorem applyBrands_field_single (t n path : Str) (hp : path ≠ []) :
    applyBrands t [⟨n, path⟩] = applyBrandToField t path n := by
  rw [applyBrands]
  simp [hp]

/-- Absence of any field-brand regex match starting inside the region a
of the string a ++ b. -/
def abfCleanOn (f : Str) : Str → Str → Bool
  | [], _ => true
  | c :: t, b => (brandMatchAt f (c :: (t ++ b))).isNone && abfCleanOn f t b

theorem abfScan_append_of_clean (f n : Str) : ∀ (a b : Str), abfCleanOn f a b = true →
    abfScan f n (a ++ b) = a ++ abfScan f n b := by
  intro a
  induction a with
  | nil => intro b _; simp
  | cons c t ih =>
      intro b h
      rw [abfCleanOn] at h
      simp only [Bool.and_eq_true, Option.isNone_iff_eq_none] at h
      rw [List.cons_append]
      conv_lhs => rw [abfScan, h.1]
      show c :: abfScan f n (t ++ b) = (c :: t) ++ abfScan f n b
      rw [List.cons_append, ih b h.2]

theorem abfScan_match_head (f n b lead w : Str) (cc : Char) (rest : Str)
    (h : brandMatchAt f b = some (lead, w, cc, rest)) :
    abfScan f n b = lead ++ w ++ cs " & BRAND<\"" ++ n ++ cs "\">" ++ [cc] ++ rest := by
  cases b with
  | nil =>
      exfalso
      have hn : brandMatchAt f [] = none := by
        cases f with
        | nil => rfl
        | cons d fs => rfl
      rw [hn] at h
      exact Option.noConfusion h
  | cons c t =>
      rw [abfScan, h]

theorem applyBrandToField_single (t path n f a b lead w : Str) (cc : Char) (rest : Str)
    (hf : f = (splitOnChar '.' path).getLastD [])
    (ht : t = a ++ b)
    (hclean : abfCleanOn f a b = true)
    (hm : brandMatchAt f b = some (lead, w, cc, rest)) :
    applyBrandToField t path n = a ++ (lead ++ w ++ brandMarker n ++ [cc] ++ rest) := by
  have e : applyBrandToField t path n =
      abfScan ((splitOnChar '.' path).getLastD []) n t := rfl
  rw [e, ← hf, ht, abfScan_append_of_clean f n a b hclean,
    abfScan_match_head f n b lead w cc rest hm]
  simp [brandMarker, List.append_assoc]

/-- Non-unified branch of formatAsDeclaration with both sides requested:
the declaration is the input declaration, a blank line, and the output
declaration with brands applied to the output side. -/
theorem formatAsDeclaration_both (r : ExtractResult) (tn : MappedTypeName)
    (opts : DeclarationOptions)
    (hio : opts.inputOnly = false) (hoo : opts.outputOnly = false)
    (hng : (opts.unifySame && (r.input == r.output) && r.brands.isEmpty) = false) :
    formatAsDeclaration r tn opts =
      schemaCommentOf r.description ++ exportKeywordOf r.isExported ++ cs "type " ++
        tn.inputName ++ cs " = " ++
        prettifyType r.input (cs "  ") r.fieldDescriptions [] ++ cs ";" ++
      cs "\n" ++ cs "\n" ++
      (exportKeywordOf r.isExported ++ cs "type " ++ tn.outputName ++ cs " = " ++
        prettifyType (applyBrands r.output r.brands) (cs "  ") r.fieldDescriptions [] ++
        cs ";") := by
  rw [formatAsDeclaration]
  rw [hng]
  simp only [Bool.false_eq_true, if_false, hio, hoo, Bool.not_false, if_true,
    Bool.false_eq_true]
  simp [List.intercalate, List.intersperse, List.append_assoc]

/-- C7: brand markers are output-only.  For a schema r1 with a root-level
brand, the printed declaration carries the brand-intersection marker in
the output type text (which is the raw output followed by the marker,
since a marker-suffixed text is never reformatted), while the printed
input type text is free of the marker (the printer introduces no marker
characters of its own).  For a schema r2 with a field-level brand whose
field pattern matches once, the marker is attached exactly at the matched
field of the output text, nowhere else in it, and never in the printed
input text. -/
theorem c7_brand_markers_output_only
    (r1 r2 : ExtractResult) (tn : MappedTypeName) (opts : DeclarationOptions)
    (n1 n2 path fieldName a b lead w : Str) (cc : Char) (rest : Str)
    (h1b : r1.brands = [⟨n1, []⟩]) (h1d : r1.fieldDescriptions = none)
    (h1B : 'B' ∉ r1.input)
    (hio : opts.inputOnly = false) (hoo : opts.outputOnly = false)
    (h2b : r2.brands = [⟨n2, path⟩]) (hp : path ≠ [])
    (h2d : r2.fieldDescriptions = none) (h2B : 'B' ∉ r2.input)
    (h2oB : 'B' ∉ r2.output)
    (hf : fieldName = (splitOnChar '.' path).getLastD [])
    (ht : r2.output = a ++ b)
    (hclean : abfCleanOn fieldName a b = true)
    (hm : brandMatchAt fieldName b = some (lead, w, cc, rest))
    (hb : b = lead ++ w ++ [cc] ++ rest) :
    (formatAsDeclaration r1 tn opts =
      schemaCommentOf r1.description ++ exportKeywordOf r1.isExported ++ cs "type " ++
        tn.inputName ++ cs " = " ++
        prettifyType r1.input (cs "  ") r1.fieldDescriptions [] ++ cs ";" ++
      cs "\n" ++ cs "\n" ++
      (exportKeywordOf r1.isExported ++ cs "type " ++ tn.outputName ++ cs " = " ++
        (r1.output ++ brandMarker n1) ++ cs ";")) ∧
    hasSub (brandMarker n1)
      (prettifyType (applyBrands r1.output r1.brands) (cs "  ")
        r1.fieldDescriptions []) = true ∧
    hasSub (brandMarker n1)
      (prettifyType r1.input (cs "  ") r1.fieldDescriptions []) = false ∧
    applyBrands r2.output r2.brands =
      a ++ (lead ++ w ++ brandMarker n2 ++ [cc] ++ rest) ∧
    hasSub (brandMarker n2) a = false ∧
    hasSub (brandMarker n2) ([cc] ++ rest) = false ∧
    hasSub (brandMarker n2)
      (prettifyType r2.input (cs "  ") r2.fieldDescriptions []) = false := by
  have hng : (opts.unifySame && (r1.input == r1.output) && r1.brands.isEmpty) = false := by
    rw [h1b]
    simp
  refine ⟨?_, ?_, ?_, ?_, ?_, ?_, ?_⟩
  · rw [formatAsDeclaration_both r1 tn opts hio hoo hng, h1b, applyBrands_root,
      prettify_branded_id]
  · rw [h1b, applyBrands_root, h1d, prettify_branded_id]
    have hd := hasSub_of_decomp (brandMarker n1) r1.output []
    rw [List.append_nil] at hd
    exact hd
  · rw [h1d]
    exact marker_not_in_prettified r1.input n1 h1B
  · rw [h2b, applyBrands_field_single r2.output n2 path hp,
      applyBrandToField_single r2.output path n2 fieldName a b lead w cc rest
        hf ht hclean hm]
  · refine not_hasSub_of_not_mem _ _ 'B' (mem_B_brandMarker n2) ?_
    intro hmem
    exact h2oB (ht ▸ List.mem_append.mpr (Or.inl hmem))
  · refine not_hasSub_of_not_mem _ _ 'B' (mem_B_brandMarker n2) ?_
    intro hmem
    apply h2oB
    rw [ht, hb]
    rcases List.mem_append.mp hmem with h1 | h1
    · exact List.mem_append.mpr (Or.inr (List.mem_append.mpr (Or.inl
        (List.mem_append.mpr (Or.inr h1)))))
    · exact List.mem_append.mpr (Or.inr (List.mem_append.mpr (Or.inr h1)))
  · rw [h2d]
    exact marker_not_in_prettified r2.input n2 h2B

/-- Witness for C7 on an email-brand root schema and a user-id field
brand. -/
theorem c7_brand_markers_output_only_witness :
    hasSub (brandMarker (cs "Email"))
      (prettifyType (applyBrands (cs "string") [⟨cs "Email", []⟩]) (cs "  ")
        none []) = true ∧
    hasSub (brandMarker (cs "Email"))
      (prettifyType (cs "string") (cs "  ") none []) = false ∧
    applyBrands (cs "\x7b id: string; \x7d") [⟨cs "UserId", cs "id"⟩] =
      cs "\x7b " ++ (cs "id: " ++ cs "string" ++ brandMarker (cs "UserId") ++
        [';'] ++ cs " \x7d") := by
  have h := c7_brand_markers_output_only
    ⟨cs "EmailSchema", cs "string", cs "string", true, none, none, [⟨cs "Email", []⟩]⟩
    ⟨cs "UserSchema", cs "\x7b id: string; \x7d", cs "\x7b id: string; \x7d", true,
      none, none, [⟨cs "UserId", cs "id"⟩]⟩
    ⟨cs "EmailSchema", cs "EmailInput", cs "EmailOutput", cs "Email"⟩
    ⟨false, false, false⟩
    (cs "Email") (cs "UserId") (cs "id") (cs "id") (cs "\x7b ") (cs "id: string; \x7d")
    (cs "id: ") (cs "string") ';' (cs " \x7d")
    rfl rfl (by decide) rfl rfl rfl (by decide) rfl (by decide) (by decide)
    (by decide) rfl (by decide) (by decide) (by decide)
  exact ⟨h.2.1, h.2.2.1, h.2.2.2.1⟩

/-- C8: with unification requested, a result whose input and output texts
are identical and which carries no brand information is printed as exactly
one declaration under the unified name; if the texts differ or a brand is
present, the unified declaration is not emitted and separate input and
output declarations are produced instead. -/
theorem c8_unified_declaration_condition (r : ExtractResult) (tn : MappedTypeName)
    (opts : DeclarationOptions) (hu : opts.unifySame = true)
    (hio : opts.inputOnly = false) (hoo : opts.outputOnly = false) :
    ((r.input = r.output ∧ r.brands = []) →
      formatAsDeclaration r tn opts =
        schemaCommentOf r.description ++ exportKeywordOf r.isExported ++
          cs "type " ++ tn.unifiedName ++ cs " = " ++
          prettifyType r.input (cs "  ") r.fieldDescriptions [] ++ cs ";") ∧
    ((r.input ≠ r.output ∨ r.brands ≠ []) →
      formatAsDeclaration r tn opts =
        schemaCommentOf r.description ++ exportKeywordOf r.isExported ++ cs "type " ++
          tn.inputName ++ cs " = " ++
          prettifyType r.input (cs "  ") r.fieldDescriptions [] ++ cs ";" ++
        cs "\n" ++ cs "\n" ++
        (exportKeywordOf r.isExported ++ cs "type " ++ tn.outputName ++ cs " = " ++
          prettifyType (applyBrands r.output r.brands) (cs "  ")
            r.fieldDescriptions [] ++ cs ";")) := by
  constructor
  · rintro ⟨he, hbr⟩
    rw [formatAsDeclaration]
    have hc : (opts.unifySame && (r.input == r.output) && r.brands.isEmpty) = true := by
      rw [hu, he, hbr]
      simp
    rw [hc]
    simp
  · intro hne
    apply formatAsDeclaration_both r tn opts hio hoo
    rcases hne with h | h
    · have : (r.input == r.output) = false := by
        simp only [beq_eq_false_iff_ne, ne_eq]
        exact h
      rw [this]
      simp
    · have : r.brands.isEmpty = false := by
        cases hbb : r.brands with
        | nil => exact absurd hbb h
        | cons x t => rfl
      rw [this]
      simp

/-- Witness for C8: a unifiable result prints one unified declaration, a
result with differing texts prints the two separate declarations. -/
theorem c8_unified_declaration_condition_witness :
    formatAsDeclaration ⟨cs "IdSchema", cs "string", cs "string", true, none, none, []⟩
      ⟨cs "IdSchema", cs "IdInput", cs "IdOutput", cs "Id"⟩ ⟨false, false, true⟩ =
      cs "export type Id = string;" ∧
    formatAsDeclaration ⟨cs "DateSchema", cs "string", cs "Date", true, none, none, []⟩
      ⟨cs "DateSchema", cs "DateInput", cs "DateOutput", cs "Date"⟩ ⟨false, false, true⟩ =
      cs "export type DateInput = string;\n\nexport type DateOutput = Date;" := by
  have h1 := (c8_unified_declaration_condition
    ⟨cs "IdSchema", cs "string", cs "string", true, none, none, []⟩
    ⟨cs "IdSchema", cs "IdInput", cs "IdOutput", cs "Id"⟩
    ⟨false, false, true⟩ rfl rfl rfl).1 ⟨rfl, rfl⟩
  have h2 := (c8_unified_declaration_condition
    ⟨cs "DateSchema", cs "string", cs "Date", true, none, none, []⟩
    ⟨cs "DateSchema", cs "DateInput", cs "DateOutput", cs "Date"⟩
    ⟨false, false, true⟩ rfl rfl rfl).2 (Or.inl (by decide))
  constructor
  · rw [h1]; decide
  · rw [h2]; decide

/-- Blank-line join of two declarations. -/
theorem intercalate_pair (x y : Str) :
    List.intercalate (cs "\n\n") [x, y] = x ++ cs "\n\n" ++ y := by
  have e : List.intercalate (cs "\n\n") [x, y] = x ++ (cs "\n\n" ++ (y ++ [])) := rfl
  rw [e, List.append_nil, List.append_assoc]

/-- Unfolding of fixResultNames over a two-entry name map. -/
theorem fixResultNames_pair (n1 n2 : Str) (m1 m2 : MappedTypeName) (r : ExtractResult) :
    fixResultNames [(n1, m1), (n2, m2)] r =
      { r with
        input := wbReplaceAll (wbReplaceAll r.input (n1 ++ cs "Input") m1.inputName)
          (n2 ++ cs "Input") m2.inputName,
        output := wbReplaceAll (wbReplaceAll r.output (n1 ++ cs "Output") m1.outputName)
          (n2 ++ cs "Output") m2.outputName } := rfl

/-- C10: when printing several results, whole-word occurrences of
schemaNameInput / schemaNameOutput inside the other results' texts are
rewritten through the active name mapping before the declarations are
emitted.  For two schemas where r2's texts hold one word-bounded
occurrence of r1's raw generated names, the name-fixing pass rewrites
exactly those occurrences to r1's mapped names, leaves r1 untouched, and
the printed file is the join of the declarations over the fixed texts. -/
theorem c10_cross_schema_name_mapping
    (r1 r2 : ExtractResult) (mapName : Str → MappedTypeName) (opts : DeclarationOptions)
    (n1 n2 a b a2 b2 : Str)
    (w0 : Char) (wr : Str) (v0 : Char) (vr : Str) (u0 : Char) (ur : Str)
    (s0 : Char) (sr : Str)
    (hn1 : r1.schemaName = n1) (hn2 : r2.schemaName = n2) (hne : n1 ≠ n2)
    (hexp1 : r1.isExported = true) (hexp2 : r2.isExported = true)
    (hwI1 : w0 :: wr = n1 ++ cs "Input") (hwO1 : v0 :: vr = n1 ++ cs "Output")
    (hwI2 : u0 :: ur = n2 ++ cs "Input") (hwO2 : s0 :: sr = n2 ++ cs "Output")
    (hc1 : wbClean w0 wr none r1.input = true)
    (hc2 : wbClean u0 ur none r1.input = true)
    (hc3 : wbClean v0 vr none r1.output = true)
    (hc4 : wbClean s0 sr none r1.output = true)
    (hdin : r2.input = a ++ (w0 :: wr) ++ b)
    (hclean1 : wbCleanUpTo w0 wr none a ((w0 :: wr) ++ b) = true)
    (hmatch1 : wbMatchAt w0 wr (prevAfter a none) ((w0 :: wr) ++ b) = true)
    (hcb1 : wbClean w0 wr (some ((w0 :: wr).getLastD w0)) b = true)
    (hc5 : wbClean u0 ur none (a ++ (mapName n1).inputName ++ b) = true)
    (hdout : r2.output = a2 ++ (v0 :: vr) ++ b2)
    (hclean2 : wbCleanUpTo v0 vr none a2 ((v0 :: vr) ++ b2) = true)
    (hmatch2 : wbMatchAt v0 vr (prevAfter a2 none) ((v0 :: vr) ++ b2) = true)
    (hcb2 : wbClean v0 vr (some ((v0 :: vr).getLastD v0)) b2 = true)
    (hc6 : wbClean s0 sr none (a2 ++ (mapName n1).outputName ++ b2) = true) :
    fixResultNames [(n1, mapName n1), (n2, mapName n2)] r2 =
      { r2 with input := a ++ (mapName n1).inputName ++ b,
                output := a2 ++ (mapName n1).outputName ++ b2 } ∧
    fixResultNames [(n1, mapName n1), (n2, mapName n2)] r1 = r1 ∧
    formatMultipleAsDeclarations [r1, r2] mapName opts =
      formatAsDeclaration r1 (mapName n1) opts ++ cs "\n\n" ++
      formatAsDeclaration ({ r2 with
          input := a ++ (mapName n1).inputName ++ b,
          output := a2 ++ (mapName n1).outputName ++ b2 }) (mapName n2) opts := by
  have hfix2 : fixResultNames [(n1, mapName n1), (n2, mapName n2)] r2 =
      { r2 with input := a ++ (mapName n1).inputName ++ b,
                output := a2 ++ (mapName n1).outputName ++ b2 } := by
    rw [fixResultNames_pair, ← hwI1, ← hwO1, ← hwI2, ← hwO2, hdin, hdout]
    rw [wbReplaceAll_single w0 wr (mapName n1).inputName a b hclean1 hmatch1 hcb1]
    rw [wbReplaceAll_single v0 vr (mapName n1).outputName a2 b2 hclean2 hmatch2 hcb2]
    rw [wbReplaceAll_of_clean u0 ur (mapName n2).inputName _ hc5]
    rw [wbReplaceAll_of_clean s0 sr (mapName n2).outputName _ hc6]
  have hfix1 : fixResultNames [(n1, mapName n1), (n2, mapName n2)] r1 = r1 := by
    rw [fixResultNames_pair, ← hwI1, ← hwO1, ← hwI2, ← hwO2]
    rw [wbReplaceAll_of_clean w0 wr (mapName n1).inputName r1.input hc1]
    rw [wbReplaceAll_of_clean u0 ur (mapName n2).inputName r1.input hc2]
    rw [wbReplaceAll_of_clean v0 vr (mapName n1).outputName r1.output hc3]
    rw [wbReplaceAll_of_clean s0 sr (mapName n2).outputName r1.output hc4]
  refine ⟨hfix2, hfix1, ?_⟩
  have hmap : List.foldl (fun m r => setA m r.schemaName (mapName r.schemaName))
      ([] : List (Str × MappedTypeName)) [r1, r2] =
      [(n1, mapName n1), (n2, mapName n2)] := by
    simp only [List.foldl]
    rw [hn1, hn2]
    simp only [setA]
    rw [if_neg hne]
  set R := ({ r2 with input := a ++ (mapName n1).inputName ++ b,
                      output := a2 ++ (mapName n1).outputName ++ b2 } :
    ExtractResult) with hRdef
  have hRe : R.isExported = true := hexp2
  have hRs : R.schemaName = n2 := hn2
  simp only [formatMultipleAsDeclarations]
  rw [hmap]
  simp only [List.map_cons, List.map_nil]
  rw [hfix1, hfix2]
  simp only [List.filter_cons, List.filter_nil, hexp1, hexp2, hRe, if_true,
    eq_self_iff_true, List.map_cons, List.map_nil, hn1, hn2, hRs]
  exact intercalate_pair _ _

/-- Witness for C10 on a post schema referencing a user schema under a
Schema-suffix-removing name mapping. -/
theorem c10_cross_schema_name_mapping_witness :
    fixResultNames
      [(cs "UserSchema", ⟨cs "UserSchema", cs "UserInput", cs "UserOutput", cs "User"⟩),
       (cs "PostSchema", ⟨cs "PostSchema", cs "PostInput", cs "PostOutput", cs "Post"⟩)]
      ⟨cs "PostSchema", cs "\x7b author: UserSchemaInput; \x7d",
        cs "\x7b author: UserSchemaOutput; \x7d", true, none, none, []⟩ =
      ⟨cs "PostSchema", cs "\x7b author: UserInput; \x7d",
        cs "\x7b author: UserOutput; \x7d", true, none, none, []⟩ ∧
    formatMultipleAsDeclarations
      [⟨cs "UserSchema", cs "\x7b id: string; \x7d", cs "\x7b id: string; \x7d", true,
        none, none, []⟩,
       ⟨cs "PostSchema", cs "\x7b author: UserSchemaInput; \x7d",
        cs "\x7b author: UserSchemaOutput; \x7d", true, none, none, []⟩]
      (fun s => ⟨s, s.take 4 ++ cs "Input", s.take 4 ++ cs "Output", s.take 4⟩)
      ⟨false, false, false⟩ =
      formatAsDeclaration
        ⟨cs "UserSchema", cs "\x7b id: string; \x7d", cs "\x7b id: string; \x7d", true,
          none, none, []⟩
        ⟨cs "UserSchema", cs "UserInput", cs "UserOutput", cs "User"⟩
        ⟨false, false, false⟩ ++ cs "\n\n" ++
      formatAsDeclaration
        ⟨cs "PostSchema", cs "\x7b author: UserInput; \x7d",
          cs "\x7b author: UserOutput; \x7d", true, none, none, []⟩
        ⟨cs "PostSchema", cs "PostInput", cs "PostOutput", cs "Post"⟩
        ⟨false, false, false⟩ := by
  have h := c10_cross_schema_name_mapping
    ⟨cs "UserSchema", cs "\x7b id: string; \x7d", cs "\x7b id: string; \x7d", true,
      none, none, []⟩
    ⟨cs "PostSchema", cs "\x7b author: UserSchemaInput; \x7d",
      cs "\x7b author: UserSchemaOutput; \x7d", true, none, none, []⟩
    (fun s => ⟨s, s.take 4 ++ cs "Input", s.take 4 ++ cs "Output", s.take 4⟩)
    ⟨false, false, false⟩
    (cs "UserSchema") (cs "PostSchema")
    (cs "\x7b author: ") (cs "; \x7d") (cs "\x7b author: ") (cs "; \x7d")
    'U' (cs "serSchemaInput") 'U' (cs "serSchemaOutput")
    'P' (cs "ostSchemaInput") 'P' (cs "ostSchemaOutput")
    rfl rfl (by decide) rfl rfl
    (by decide) (by decide) (by decide) (by decide)
    (by decide) (by decide) (by decide) (by decide)
    (by decide) (by decide) (by decide) (by decide) (by decide)
    (by decide) (by decide) (by decide) (by decide) (by decide)
  exact ⟨h.1, h.2.2⟩

/-- C9 (amended): a configuration with both inputOnly and outputOnly set
fails with the invalid-option error whose message names the conflicting
pair and which carries the corrective hint, and it fails immediately
after config-file loading: no input-file resolution, extraction or
output-writing step is ever reached (the trace holds only the config-load
step, which necessarily precedes validation because the validated options
may come from the config file). -/
theorem c9_both_only_flags_fail_eagerly (files : List Str) (opts : CLIOptions)
    (fileConfig : ZinferConfig)
    (pipeline : ZinferConfig → List Str → Except CLIError Unit × List CLIEvent)
    (h1 : (mergeCliWithConfig opts fileConfig).inputOnly.getD false = true)
    (h2 : (mergeCliWithConfig opts fileConfig).outputOnly.getD false = true) :
    runCLIModel files opts fileConfig pipeline =
      (.error (.invalid (invalidOption (cs "inputOnly/outputOnly")
        (cs "Cannot use both --input-only and --output-only at the same time")
        (some (cs "Choose either --input-only or --output-only, not both")))),
        [CLIEvent.configLoad]) ∧
    (invalidOption (cs "inputOnly/outputOnly")
        (cs "Cannot use both --input-only and --output-only at the same time")
        (some (cs "Choose either --input-only or --output-only, not both"))).hint ≠
      none ∧
    CLIEvent.inputFileResolution ∉ ([CLIEvent.configLoad] : List CLIEvent) := by
  refine ⟨?_, by simp [invalidOption], by decide⟩
  have hval : validateOptions (mergeCliWithConfig opts fileConfig) =
      .error (invalidOption (cs "inputOnly/outputOnly")
        (cs "Cannot use both --input-only and --output-only at the same time")
        (some (cs "Choose either --input-only or --output-only, not both"))) := by
    rw [validateOptions, h1, h2]
    rfl
  simp only [runCLIModel, hval]

/-- Witness for the amended C9 with both flags passed on the command
line over an empty config file. -/
theorem c9_both_only_flags_fail_eagerly_witness :
    runCLIModel [] ⟨none, none, some true, some true, none, none, none, none, none,
        none, none, none, none, none, none, none⟩
      ⟨none, none, none, none, none, none, none, none, none, none, none, none, none,
        none, none, none⟩ (fun _ _ => (.ok (), [])) =
      (.error (.invalid (invalidOption (cs "inputOnly/outputOnly")
        (cs "Cannot use both --input-only and --output-only at the same time")
        (some (cs "Choose either --input-only or --output-only, not both")))),
        [CLIEvent.configLoad]) ∧
    (invalidOption (cs "inputOnly/outputOnly")
        (cs "Cannot use both --input-only and --output-only at the same time")
        (some (cs "Choose either --input-only or --output-only, not both"))).hint ≠
      none ∧
    CLIEvent.inputFileResolution ∉ ([CLIEvent.configLoad] : List CLIEvent) :=
  c9_both_only_flags_fail_eagerly [] _ _ _ rfl rfl

/-- C9 counterexample: even with both flags set via the command line, the
run's step trace already holds the config-load step - file-system access
performed by ConfigLoader.load (existsSync probes and config reading) -
before validation fails, so the validation does not precede every file
I/O as claimed; it precedes every input-file access. -/
theorem c9_counterexample_config_io_precedes_validation :
    (runCLIModel [] ⟨none, none, some true, some true, none, none, none, none, none,
        none, none, none, none, none, none, none⟩
      ⟨none, none, none, none, none, none, none, none, none, none, none, none, none,
        none, none, none⟩ (fun _ _ => (.ok (), []))).2 =
      [CLIEvent.configLoad] ∧
    ([CLIEvent.configLoad] : List CLIEvent) ≠ [] := by
  exact ⟨rfl, by decide⟩

end Zinfer
